import Mathlib

/-!
Verification of the CTMC (continuous-time Markov chain) engine of the
Stochastic-Processes-Simulator repository, shallowly embedded in Lean 4.

Numbers are modelled by `ℚ` wherever the TypeScript source performs rational
arithmetic on IEEE doubles (exact-arithmetic idealisation), and by `ℝ` for the
transcendental parts (exponential holding times via `Real.log`).  Records
keyed by state name (`Record<string, number>`) are modelled as total
functions `String → ℚ` that are `0` outside the keys the source would have
written, or as association lists where key order matters.
-/

namespace StochSim

/-- A single transition of the chain (`CtmcTransition` in `types/ctmc`):
`from -> to : rate`.  The field `from` of the source is called `from_`, `to_` here
because `from` and `to` are Lean keywords. -/
structure CtmcTransition where
  from_ : String
  to_ : String
  rate : ℚ
deriving DecidableEq

/-- A parsed chain definition (`CtmcDef` in `types/ctmc`). -/
structure CtmcDef where
  states : List String
  initialDistribution : String → ℚ
  transitions : List CtmcTransition

/-- Result of `parseCtmcDSL` (`CtmcParseResult`). -/
inductive CtmcParseResult where
  | ok (chain : CtmcDef)
  | error (msg : String)

/-- Whether a parse result is a success. -/
def CtmcParseResult.isOk : CtmcParseResult → Bool
  | .ok _ => true
  | .error _ => false

/-! ## buildRateMatrix -/

/-- The transition-accumulation loop of `buildRateMatrix`:
`Q[t.from][t.to_] = (Q[t.from][t.to_] ?? 0) + t.rate` for each transition in
order, starting from the all-zero matrix. -/
def addTransitions (ts : List CtmcTransition) (Q : String → String → ℚ) :
    String → String → ℚ :=
  ts.foldl (fun Q t => fun i j =>
    if i = t.from_ ∧ j = t.to_ then Q i j + t.rate else Q i j) Q

/-- `buildRateMatrix`: off-diagonal entries accumulate the rates of all
transitions for the ordered pair, then every diagonal entry is overwritten
with the negated sum of the off-diagonal entries of its row (the sum ranging
over the declared states other than the row state, exactly as the
`for (const s2 of chain.states) if (s !== s2)` loop does). -/
def buildRateMatrix (chain : CtmcDef) : String → String → ℚ :=
  let Q1 := addTransitions chain.transitions (fun _ _ => 0)
  fun i j =>
    if i = j then
      -((chain.states.filter (fun s2 => i ≠ s2)).map (fun s2 => Q1 i s2)).sum
    else Q1 i j

/-- Sum of the rates of all transitions from `i` to `j` (duplicates summed). -/
def ratePairSum (chain : CtmcDef) (i j : String) : ℚ :=
  ((chain.transitions.filter (fun t => t.from_ = i ∧ t.to_ = j)).map
    (fun t => t.rate)).sum

/-! ## isIrreducible -/

/-- The `successors` closure of `isIrreducible`:
`chain.states.filter((j) => s !== j && Q[s][j] > 0)`. -/
def succs (chain : CtmcDef) (Q : String → String → ℚ) (s : String) :
    List String :=
  chain.states.filter (fun j => s ≠ j ∧ 0 < Q s j)

/-- One pass of the inner `for (const v of successors(u))` loop: each
successor not yet visited is appended to the queue and marked visited.
The pair is `(queue, visited)`. -/
def bfsPush (vs : List String) (p : List String × List String) :
    List String × List String :=
  vs.foldl (fun p v =>
    if v ∈ p.2 then p else (p.1 ++ [v], p.2 ++ [v])) p

/-- The `while (queue.length > 0)` BFS loop, with explicit fuel bounding the
number of dequeues (the TypeScript loop performs at most one dequeue per
distinct visited state, so any fuel of at least `chain.states.length + 1`
reproduces it exactly). -/
def bfsVisit (succ : String → List String) :
    ℕ → List String → List String → List String
  | 0, _, visited => visited
  | _ + 1, [], visited => visited
  | fuel + 1, u :: queue, visited =>
    let p := bfsPush (succ u) (queue, visited)
    bfsVisit succ fuel p.1 p.2

/-- `isIrreducible`: a chain with at most one state is irreducible; otherwise
every state's breadth-first traversal along positive-rate edges must visit
all `n` states. -/
def isIrreducible (chain : CtmcDef) : Bool :=
  let n := chain.states.length
  if n ≤ 1 then true
  else
    let Q := buildRateMatrix chain
    chain.states.all (fun start =>
      (bfsVisit (succs chain Q) (n + 1) [start] [start]).length = n)

/-- The edge relation of the claim: the directed graph on the declared states
whose edges are the pairs with positive rate-matrix entry.  (The code's
`successors` additionally skips the diagonal, which cannot affect
reachability.) -/
def edgeStep (chain : CtmcDef) (a b : String) : Prop :=
  b ∈ chain.states ∧ a ≠ b ∧ 0 < buildRateMatrix chain a b

/-- Reachability along positive-rate edges (reflexive-transitive closure). -/
def reaches (chain : CtmcDef) (a b : String) : Prop :=
  Relation.ReflTransGen (edgeStep chain) a b

/-- Strong connectivity of the positive-rate transition graph. -/
def stronglyConnected (chain : CtmcDef) : Prop :=
  ∀ i ∈ chain.states, ∀ j ∈ chain.states, reaches chain i j

/-! ## getStationaryDistribution -/

/-- The fixed pivot tolerance `1e-10` of the stationary solver. -/
def statEps : ℚ := 1 / 10 ^ 10

/-- The augmented system of `getStationaryDistribution`:
`M[i][j] = (i === n-1 ? 1 : Q[states[j]][states[i]])` and
`b[i] = (i === n-1 ? 1 : 0)`.  Matrices are total functions on `ℕ` whose
entries outside `[0, n)` are never consulted by rows inside the range. -/
def stationarySystem (chain : CtmcDef) : (ℕ → ℕ → ℚ) × (ℕ → ℚ) :=
  let n := chain.states.length
  let Q := buildRateMatrix chain
  (fun i j =>
    if i = n - 1 then 1
    else Q (chain.states.getD j "") (chain.states.getD i ""),
   fun i => if i = n - 1 then 1 else 0)

/-- One column step of the solver's Gaussian elimination: find the first row
at or below `col` whose entry exceeds the tolerance in magnitude; if none,
skip the column (`continue`); otherwise swap it up, normalise the pivot row,
and eliminate the column from every other row whose entry is not below the
tolerance. -/
def statElimStep (n : ℕ) (p : (ℕ → ℕ → ℚ) × (ℕ → ℚ)) (col : ℕ) :
    (ℕ → ℕ → ℚ) × (ℕ → ℚ) :=
  let M := p.1
  let b := p.2
  match (List.range' col (n - col)).find? (fun row => statEps < |M row col|) with
  | none => p
  | some piv =>
    let M1 := fun i j =>
      if i = col then M piv j else if i = piv then M col j else M i j
    let b1 := fun i =>
      if i = col then b piv else if i = piv then b col else b i
    let s := M1 col col
    let M2 := fun i j => if i = col then M1 i j / s else M1 i j
    let b2 := fun i => if i = col then b1 i / s else b1 i
    let M3 := fun i j =>
      if i ≠ col ∧ statEps ≤ |M2 i col| then M2 i j - M2 i col * M2 col j
      else M2 i j
    let b3 := fun i =>
      if i ≠ col ∧ statEps ≤ |M2 i col| then b2 i - M2 i col * b2 col
      else b2 i
    (M3, b3)

/-- The full elimination loop `for (let col = 0; col < n; col++)`. -/
def stationaryElim (chain : CtmcDef) : (ℕ → ℕ → ℚ) × (ℕ → ℚ) :=
  (List.range chain.states.length).foldl
    (statElimStep chain.states.length) (stationarySystem chain)

/-- `getStationaryDistribution`: `null` when the chain is not irreducible,
otherwise the mapping `states[i] ↦ Math.max(0, b[i])` (negative solver
results clamped to zero). -/
def getStationaryDistribution (chain : CtmcDef) :
    Option (List (String × ℚ)) :=
  if isIrreducible chain = false then none
  else if chain.states.length = 0 then some []
  else
    let b := (stationaryElim chain).2
    some ((List.range chain.states.length).map
      (fun i => (chain.states.getD i "", max 0 (b i))))

/-! ## matrixExponential -/

/-- The identity matrix template `(i === j ? 1 : 0)`. -/
def idMat : ℕ → ℕ → ℚ :=
  fun i j => if i = j then 1 else 0

/-- `rowSum` of absolute values of row `i` (the inner loop of the norm
computation). -/
def rowAbsSum (A : ℕ → ℕ → ℚ) (n i : ℕ) : ℚ :=
  ((List.range n).map (fun j => |A i j|)).sum

/-- The infinity norm loop: `norm = Math.max(norm, rowSum)` starting at 0. -/
def infNorm (A : ℕ → ℕ → ℚ) (n : ℕ) : ℚ :=
  (List.range n).foldl (fun acc i => max acc (rowAbsSum A n i)) 0

/-- The scaling exponent `m = Math.max(0, Math.ceil(Math.log2(norm)))`.
For `norm = 0` the JavaScript expression is `max(0, ceil(-∞)) = 0`; for
positive `norm` it is `⌈log₂ norm⌉` clamped below by 0, i.e.
`(Int.clog 2 norm).toNat`. -/
def expScaleM (norm : ℚ) : ℕ :=
  if 0 < norm then (Int.clog 2 norm).toNat else 0

/-- `matMult`: `C[i][j] = Σ_k A[i][k] * B[k][j]`. -/
def matMult (n : ℕ) (A B : ℕ → ℕ → ℚ) : ℕ → ℕ → ℚ :=
  fun i j => ((List.range n).map (fun k => A i k * B k j)).sum

/-- `matAdd(A, B, coefA, coefB)`. -/
def matAdd (A B : ℕ → ℕ → ℚ) (coefA coefB : ℚ) : ℕ → ℕ → ℚ :=
  fun i j => coefA * A i j + coefB * B i j

/-- The partial-pivot search of `gaussJordanInverse`: start at `col` and take
any strictly larger entry found in the rows below. -/
def gjPivot (A : ℕ → ℕ → ℚ) (n col : ℕ) : ℕ :=
  (List.range' (col + 1) (n - (col + 1))).foldl
    (fun p row => if |A row col| > |A p col| then row else p) col

/-- One column of `gaussJordanInverse`: pivot search, singularity skip
(`if (Math.abs(A[pivot][col]) < 1e-10) continue`), row swap, pivot-row
scaling, and elimination of every other row (in both `A` and the inverse
accumulator).  The pair is `(A, I)`. -/
def gjStep (n : ℕ) (p : (ℕ → ℕ → ℚ) × (ℕ → ℕ → ℚ)) (col : ℕ) :
    (ℕ → ℕ → ℚ) × (ℕ → ℕ → ℚ) :=
  let A := p.1
  let B := p.2
  let piv := gjPivot A n col
  if |A piv col| < statEps then p
  else
    let A1 := fun i j =>
      if i = col then A piv j else if i = piv then A col j else A i j
    let B1 := fun i j =>
      if i = col then B piv j else if i = piv then B col j else B i j
    let s := A1 col col
    let A2 := fun i j => if i = col then A1 i j / s else A1 i j
    let B2 := fun i j => if i = col then B1 i j / s else B1 i j
    let A3 := fun i j =>
      if i ≠ col then A2 i j - A2 i col * A2 col j else A2 i j
    let B3 := fun i j =>
      if i ≠ col then B2 i j - A2 i col * B2 col j else B2 i j
    (A3, B3)

/-- `gaussJordanInverse` (tolerance `1e-10`, identical literal to the
stationary solver's `eps`): columns with negligible pivots are skipped. -/
def gaussJordanInverse (n : ℕ) (M : ℕ → ℕ → ℚ) : ℕ → ℕ → ℚ :=
  ((List.range n).foldl (gjStep n) (M, idMat)).2

/-- `matrixExponential(Q, states, t)` via scaling and squaring with the
implemented degree-2 rational approximation.  (The source's early return for
`n = 0` produces the empty record; here every entry of the result is simply
never consulted when `n = 0`.) -/
def matrixExponential (Q : String → String → ℚ) (states : List String)
    (t : ℚ) : ℕ → ℕ → ℚ :=
  let n := states.length
  let Qt := fun i j => Q (states.getD i "") (states.getD j "") * t
  let m := expScaleM (infNorm Qt n)
  let QtS := fun i j => Qt i j / 2 ^ m
  let Qt2 := matMult n QtS QtS
  let num := matAdd (matAdd idMat QtS 1 (1 / 2)) Qt2 1 (1 / 12)
  let den := matAdd (matAdd idMat QtS 1 (-(1 / 2))) Qt2 1 (1 / 12)
  let invDen := gaussJordanInverse n den
  let result := matMult n invDen num
  (fun R => matMult n R R)^[m] result

/-! ## parseCtmcDSL

The parser works line by line, collecting the bodies of the three sections,
then parses states, initial distribution and rates.  The two regular
expressions of the source, `/(\S+)\s*:\s*([\d.]+)/g` for initial-distribution
entries and the anchored `/^\s*(\S+)\s*->\s*(\S+)\s*:\s*([\d.]+)\s*$/` for
rate entries, are embedded as character-list scanners with the same
leftmost-longest-with-backtracking semantics (a greedy `\S+` group is
retried from the longest split downwards; the `\s*` runs are deterministic
because the characters that follow them in the pattern are never
whitespace). -/


/-- Whitespace, as in the regex class `\s` (and in `String.prototype.trim`). -/
def isWsChar (c : Char) : Bool := c.isWhitespace

/-- The regex class `[\d.]`. -/
def isNumChar (c : Char) : Bool := c.isDigit || c = '.'

/-- `String.prototype.trim` on character lists. -/
def trimL (cs : List Char) : List Char :=
  ((cs.dropWhile isWsChar).reverse.dropWhile isWsChar).reverse

/-- Case-insensitive comparison support: `String.prototype.toLowerCase`. -/
def lowerL (cs : List Char) : List Char := cs.map Char.toLower

/-- `split` on a one-character separator (`split(/\n/)` and `split(',')`). -/
def splitOnCharL (sep : Char) : List Char → List (List Char)
  | [] => [[]]
  | c :: cs =>
    match splitOnCharL sep cs with
    | [] => [[]]
    | g :: gs => if c = sep then [] :: g :: gs else (c :: g) :: gs

/-- `Array.prototype.join(' ')`. -/
def joinSpaceL : List (List Char) → List Char
  | [] => []
  | [l] => l
  | l :: ls => l ++ ' ' :: joinSpaceL ls

/-- Section marker of the line-collection loop. -/
inductive Sect where
  | states
  | initial
  | rates
deriving DecidableEq

/-- Accumulator of the line-collection loop: the current section and the
collected body lines of each section. -/
structure ParseAcc where
  sect : Option Sect
  stateLines : List (List Char)
  initialLines : List (List Char)
  rateLines : List (List Char)

/-- The `for (let i = 0; i < lines.length; i++)` loop: blank lines are
skipped, a (case-insensitive) header line switches the section and may carry
the first body fragment, any other line is appended to the current section's
body, and a content line before any header is the only error exit. -/
def collectLines : List (List Char) → ParseAcc → Except String ParseAcc
  | [], acc => .ok acc
  | line :: rest, acc =>
    let t := trimL line
    if t = [] then collectLines rest acc
    else if List.isPrefixOf "states:".data (lowerL t) then
      let part := trimL (t.drop 7)
      collectLines rest { acc with
        sect := some Sect.states
        stateLines := acc.stateLines ++ if part ≠ [] then [part] else [] }
    else if List.isPrefixOf "initial distribution:".data (lowerL t) then
      let part := trimL (t.drop 21)
      collectLines rest { acc with
        sect := some Sect.initial
        initialLines := acc.initialLines ++ if part ≠ [] then [part] else [] }
    else if List.isPrefixOf "rates:".data (lowerL t)
        ∨ List.isPrefixOf "rate:".data (lowerL t) then
      let part :=
        if List.isPrefixOf "rates:".data (lowerL t) then trimL (t.drop 6)
        else trimL (t.drop 5)
      collectLines rest { acc with
        sect := some Sect.rates
        rateLines := acc.rateLines ++ if part ≠ [] then [part] else [] }
    else
      match acc.sect with
      | some .states =>
        collectLines rest { acc with stateLines := acc.stateLines ++ [t] }
      | some .initial =>
        collectLines rest { acc with initialLines := acc.initialLines ++ [t] }
      | some .rates =>
        collectLines rest { acc with rateLines := acc.rateLines ++ [t] }
      | none => .error "First section must be States: A, B, C, ..."

/-- The duplicate-state scan (`Set`-based loop of the source). -/
def firstDup : List String → List String → Option String
  | [], _ => none
  | n :: rest, seen =>
    if n ∈ seen then some n else firstDup rest (seen ++ [n])

/-- Digit run to a natural number. -/
def digitsToNat (ds : List Char) : ℕ :=
  ds.foldl (fun acc c => acc * 10 + (c.toNat - Char.toNat '0')) 0

/-- `parseFloat` restricted to texts drawn from `[\d.]+`: an optional integer
part, an optional dot with fraction digits; `none` models `NaN` (no digit
before a second dot, as in `parseFloat(".")`).  Trailing unconsumed text
(e.g. the `.3` of `1.2.3`) is ignored, as `parseFloat` ignores it. -/
def parseFloatQ (cs : List Char) : Option ℚ :=
  let ip := cs.takeWhile Char.isDigit
  match cs.drop ip.length with
  | '.' :: r2 =>
    let fp := r2.takeWhile Char.isDigit
    if ip.isEmpty ∧ fp.isEmpty then none
    else some ((digitsToNat ip : ℚ) + (digitsToNat fp : ℚ) / 10 ^ fp.length)
  | _ => if ip.isEmpty then none else some ((digitsToNat ip : ℚ))

/-- Match `\s* ':' \s* ([\d.]+)` at the head of `r`; returns the digit group
and the remainder after it. -/
def tryProbTail (r : List Char) : Option (List Char × List Char) :=
  match r.dropWhile isWsChar with
  | ':' :: r3 =>
    let r4 := r3.dropWhile isWsChar
    let digits := r4.takeWhile isNumChar
    if digits.isEmpty then none else some (digits, r4.drop digits.length)
  | _ => none

/-- Backtracking over the greedy `(\S+)` group of the probability regex:
`run` is the maximal non-whitespace run at the match position, and splits
are tried longest first (`k` is the split length currently tried). -/
def probSplits (run rest : List Char) :
    ℕ → Option ((List Char × List Char) × List Char)
  | 0 => none
  | k + 1 =>
    match tryProbTail (run.drop (k + 1) ++ rest) with
    | some (digits, after) => some ((run.take (k + 1), digits), after)
    | none => probSplits run rest k

/-- The global scan of `/(\S+)\s*:\s*([\d.]+)/g`: successive leftmost
matches, with `fuel` bounding the scan (the call site passes the text
length, which suffices since every step consumes at least one character). -/
def scanProbs : ℕ → List Char → List (String × List Char)
  | 0, _ => []
  | _ + 1, [] => []
  | fuel + 1, c :: cs =>
    if isWsChar c then scanProbs fuel cs
    else
      let run := (c :: cs).takeWhile (fun ch => ¬ isWsChar ch)
      match probSplits run ((c :: cs).drop run.length) run.length with
      | some ((g1, digits), after) =>
        (String.mk g1, digits) :: scanProbs fuel after
      | none => scanProbs fuel cs

/-- The `while ((m = probRegex.exec(initialText)) !== null)` loop: unknown
states and out-of-range or unparsable probabilities error out, duplicate
mentions accumulate. -/
def procProbs (states : List String) :
    List (String × List Char) → (String → ℚ) → Except String (String → ℚ)
  | [], dist => .ok dist
  | (name, num) :: rest, dist =>
    if name ∉ states then
      .error ("Unknown state \x22" ++ name ++ "\x22 in initial distribution.")
    else
      match parseFloatQ num with
      | none =>
        .error ("Invalid probability \x22" ++ String.mk num ++ "\x22 in initial distribution.")
      | some p =>
        if p < 0 ∨ 1 < p then
          .error ("Invalid probability \x22" ++ String.mk num ++ "\x22 in initial distribution.")
        else procProbs states rest (fun s => if s = name then dist s + p else dist s)

/-- The initial-distribution section: either the literal `uniform`, or the
scanned `state : probability` pairs followed by the default fill (a no-op in
the total-function model) and the sum-within-`1e-6` check. -/
def parseInitialDist (states : List String) (initialText : List Char) :
    Except String (String → ℚ) :=
  if lowerL initialText = "uniform".data then
    .ok (fun s => if s ∈ states then 1 / (states.length : ℚ) else 0)
  else
    match procProbs states (scanProbs initialText.length initialText)
        (fun _ => 0) with
    | .error e => .error e
    | .ok dist =>
      let sum := (states.map dist).sum
      if 1 / 10 ^ 6 < |sum - 1| then
        .error "Initial distribution must sum to 1."
      else .ok dist

/-- Match `\s* ':' \s* ([\d.]+) \s* $` at the head of `r` (the anchored tail
of the rate regex); returns the digit group. -/
def tryRateColon (r : List Char) : Option (List Char) :=
  match r.dropWhile isWsChar with
  | ':' :: r3 =>
    let r4 := r3.dropWhile isWsChar
    let digits := r4.takeWhile isNumChar
    if digits.isEmpty then none
    else if (r4.drop digits.length).dropWhile isWsChar = [] then some digits
    else none
  | _ => none

/-- Backtracking over the second greedy `(\S+)` group of the rate regex. -/
def rateSplits2 (run rest : List Char) :
    ℕ → Option (List Char × List Char)
  | 0 => none
  | k + 1 =>
    match tryRateColon (run.drop (k + 1) ++ rest) with
    | some digits => some (run.take (k + 1), digits)
    | none => rateSplits2 run rest k

/-- Match `\s* '->' \s* (\S+) \s* ':' \s* ([\d.]+) \s* $` at the head of
`r`, for a fixed first group `g1`. -/
def tryRateArrow (g1 : List Char) (r : List Char) :
    Option (List Char × List Char × List Char) :=
  match r.dropWhile isWsChar with
  | '-' :: '>' :: r3 =>
    let r4 := r3.dropWhile isWsChar
    let run2 := r4.takeWhile (fun c => ¬ isWsChar c)
    if run2.isEmpty then none
    else
      match rateSplits2 run2 (r4.drop run2.length) run2.length with
      | some (g2, digits) => some (g1, g2, digits)
      | none => none
  | _ => none

/-- Backtracking over the first greedy `(\S+)` group of the rate regex. -/
def rateSplits1 (run rest : List Char) :
    ℕ → Option (List Char × List Char × List Char)
  | 0 => none
  | k + 1 =>
    match tryRateArrow (run.take (k + 1)) (run.drop (k + 1) ++ rest) with
    | some res => some res
    | none => rateSplits1 run rest k

/-- The anchored rate regex `/^\s*(\S+)\s*->\s*(\S+)\s*:\s*([\d.]+)\s*$/`
applied to one comma-separated part: returns `(from, to, rate-text)` on a
match, `none` otherwise. -/
def matchRate (cs : List Char) : Option (String × String × List Char) :=
  let cs1 := cs.dropWhile isWsChar
  let run1 := cs1.takeWhile (fun c => ¬ isWsChar c)
  if run1.isEmpty then none
  else
    (rateSplits1 run1 (cs1.drop run1.length) run1.length).map
      (fun g => (String.mk g.1, String.mk g.2.1, g.2.2))

/-- The per-part body of the rates loop: a part that does not match the
regex is silently skipped; a matching part is validated (declared states, no
self-loop, parsable positive rate) and appended. -/
def procParts (states : List String) :
    List (List Char) → List CtmcTransition → Except String (List CtmcTransition)
  | [], acc => .ok acc
  | part :: rest, acc =>
    match matchRate (trimL part) with
    | none => procParts states rest acc
    | some (f, t, rateStr) =>
      if f ∉ states then
        .error ("Unknown state \x22" ++ f ++ "\x22 in rate specification.")
      else if t ∉ states then
        .error ("Unknown state \x22" ++ t ++ "\x22 in rate specification.")
      else if f = t then
        .error ("Self-loops not allowed in CTMC (from \x22" ++ f ++ "\x22 to \x22" ++ t ++ "\x22).")
      else
        match parseFloatQ rateStr with
        | none =>
          .error ("Invalid rate \x22" ++ String.mk rateStr ++ "\x22 (must be > 0).")
        | some r =>
          if r ≤ 0 then
            .error ("Invalid rate \x22" ++ String.mk rateStr ++ "\x22 (must be > 0).")
          else procParts states rest (acc ++ [⟨f, t, r⟩])

/-- The `for (const line of rateLines)` loop. -/
def procRateLines (states : List String) :
    List (List Char) → List CtmcTransition → Except String (List CtmcTransition)
  | [], acc => .ok acc
  | line :: rest, acc =>
    match procParts states (splitOnCharL ',' line) acc with
    | .error e => .error e
    | .ok acc2 => procRateLines states rest acc2

/-- `parseCtmcDSL`. -/
def parseCtmcDSL (text : String) : CtmcParseResult :=
  let trimmed := trimL text.data
  if trimmed = [] then .error "Definition is empty."
  else
    match collectLines (splitOnCharL '\n' trimmed) ⟨none, [], [], []⟩ with
    | .error e => .error e
    | .ok acc =>
      let stateText := joinSpaceL acc.stateLines
      let names :=
        ((((splitOnCharL ',' stateText).map trimL).filter
          (fun g => g ≠ [])).map String.mk)
      if names.length = 0 then .error "States list is empty."
      else
        match firstDup names [] with
        | some n => .error ("Duplicate state name: " ++ n)
        | none =>
          if acc.initialLines.length = 0 then
            .error "Missing \x22Initial distribution:\x22 section."
          else
            match parseInitialDist names (trimL (joinSpaceL acc.initialLines)) with
            | .error e => .error e
            | .ok dist =>
              match procRateLines names acc.rateLines [] with
              | .error e => .error e
              | .ok transitions =>
                if acc.sect ≠ some Sect.rates then
                  .error "Missing \x22Rates:\x22 section."
                else .ok ⟨names, dist, transitions⟩

/-! ## buildJumpMap, sampleJump, sampleTrajectory, runSimulation

The uniform random source is modelled as a stream `rand : ℕ → ℚ` of draws
(IEEE doubles are rationals) consumed in call order; the sampler threads the
next unread index.  Holding times live in `ℝ` because of `Math.log`; the
JavaScript `Infinity` of an absorbing state (and of `-Math.log(0)`) is
modelled by `Option ℝ` with `none` for an infinite holding time. -/

/-- Well-formedness facts about a chain definition that the parser
guarantees and that the downstream samplers assume. -/
def ValidChain (chain : CtmcDef) : Prop :=
  chain.states ≠ [] ∧ chain.states.Nodup ∧
    ∀ t ∈ chain.transitions,
      t.from_ ∈ chain.states ∧ t.to_ ∈ chain.states ∧ 0 < t.rate

/-- One row of `buildJumpMap`: total exit rate, target list and
cumulative-rate thresholds. -/
structure JumpRow where
  totalRate : ℚ
  to_ : List String
  cumul : List ℚ

/-- The row of `buildJumpMap` for one state: its outgoing transitions in
declaration order, their running cumulative rates, and the total rate. -/
def jumpRow (chain : CtmcDef) (s : String) : JumpRow :=
  let list := chain.transitions.filter (fun t => t.from_ = s)
  { totalRate := (list.map (fun t => t.rate)).sum
    to_ := list.map (fun t => t.to_)
    cumul := ((list.map (fun t => t.rate)).scanl (· + ·) 0).tail }

/-- `jumpMap.get(from)`: defined exactly for declared states. -/
def jumpMapGet (chain : CtmcDef) (s : String) : Option JumpRow :=
  if s ∈ chain.states then some (jumpRow chain s) else none

/-- Whether `sampleJump` takes the absorbing early return for `s` (the row
is missing or its total rate is `0`); in that case it consumes no draws. -/
def isAbsorbing (chain : CtmcDef) (s : String) : Bool :=
  match jumpMapGet chain s with
  | none => true
  | some row => row.totalRate = 0

/-- The destination scan of `sampleJump`: the first target whose cumulative
threshold exceeds `u`, defaulting to the current state. -/
def nextFromCumul (from_ : String) : List String → List ℚ → ℚ → String
  | t :: ts, c :: cs, u => if u < c then t else nextFromCumul from_ ts cs u
  | _, _, _ => from_

/-- The cumulative scan of `sampleFromDistribution`. -/
def sfdGo (dist : String → ℚ) (u : ℚ) : List String → ℚ → Option String
  | [], _ => none
  | s :: rest, cumul =>
    let c := cumul + dist s
    if u < c then some s else sfdGo dist u rest c

/-- `sampleFromDistribution`: first state whose cumulative probability
exceeds the draw, falling back to the last state when rounding exhausts the
draw. -/
def sampleFromDistribution (dist : String → ℚ) (states : List String)
    (u : ℚ) : String :=
  match sfdGo dist u states 0 with
  | some s => s
  | none => states.getD (states.length - 1) ""

open scoped Classical

/-- `sampleJump(from, jumpMap, rand)` given the two draws it may consume:
`u1` for the holding time (`-Math.log(rand())/totalRate`, infinite when
`u1 = 0` since `Math.log(0) = -∞`), `u2` for the destination. -/
noncomputable def sampleJump (chain : CtmcDef) (from_ : String)
    (u1 u2 : ℚ) : String × Option ℝ :=
  match jumpMapGet chain from_ with
  | none => (from_, none)
  | some row =>
    if row.totalRate = 0 then (from_, none)
    else
      let holdingTime : Option ℝ :=
        if u1 = 0 then none
        else some (-Real.log (u1 : ℝ) / (row.totalRate : ℝ))
      (nextFromCumul from_ row.to_ row.cumul (u2 * row.totalRate),
       holdingTime)

/-- The `while (currentTime < maxTime)` loop of `sampleTrajectory`, with
fuel bounding the iteration count (the source loop need not terminate for
adversarial draws; every finite prefix of its behaviour is reproduced by
some fuel).  Arguments after the fuel: next unread draw index, current
time, current state, trajectory so far.  Returns the trajectory and the
next unread draw index. -/
noncomputable def sampleBody (chain : CtmcDef) (maxTime : ℝ) (rand : ℕ → ℚ) :
    ℕ → ℕ → ℝ → String → List (ℝ × String) → List (ℝ × String) × ℕ
  | 0, idx, _, _, traj => (traj, idx)
  | fuel + 1, idx, currentTime, currentState, traj =>
    if currentTime < maxTime then
      let j := sampleJump chain currentState (rand idx) (rand (idx + 1))
      let idx2 := if isAbsorbing chain currentState then idx else idx + 2
      match j.2 with
      | none => (traj, idx2)
      | some h =>
        if maxTime ≤ currentTime + h then (traj, idx2)
        else
          sampleBody chain maxTime rand fuel idx2 (currentTime + h) j.1
            (traj ++ [(currentTime + h, j.1)])
    else (traj, idx)

/-- `sampleTrajectory` starting at draw index `idx0` (the sampler draws once
for the initial state, then enters the jump loop). -/
noncomputable def sampleTrajectoryFrom (chain : CtmcDef) (maxTime : ℝ)
    (rand : ℕ → ℚ) (fuel idx0 : ℕ) : List (ℝ × String) × ℕ :=
  let start :=
    sampleFromDistribution chain.initialDistribution chain.states (rand idx0)
  sampleBody chain maxTime rand fuel (idx0 + 1) 0 start [(0, start)]

/-- `sampleTrajectory(chain, maxTime, rand)`. -/
noncomputable def sampleTrajectory (chain : CtmcDef) (maxTime : ℝ)
    (rand : ℕ → ℚ) (fuel : ℕ) : List (ℝ × String) :=
  (sampleTrajectoryFrom chain maxTime rand fuel 0).1

/-- The evenly spaced grid `(i / (numTimePoints - 1)) * maxTime`. -/
noncomputable def timePoints (numTimePoints : ℕ) (maxTime : ℝ) : List ℝ :=
  (List.range numTimePoints).map
    (fun i => ((i : ℝ) / ((numTimePoints : ℝ) - 1)) * maxTime)

/-- The state occupied at time `t`: the last jump event at or before `t`
(`trajectory[0].state` when no later event qualifies; the scan stops at the
first later event). -/
noncomputable def stateAtTime (traj : List (ℝ × String)) (t : ℝ) : String :=
  match traj with
  | [] => ""
  | p :: rest => ((p :: rest.takeWhile (fun q => q.1 ≤ t)).getLastD (0, "")).2

/-- The per-trajectory tally: for each grid index, increment the count of
the state occupied at that grid time. -/
noncomputable def tallyTrajectory (numTimePoints : ℕ) (tps : List ℝ)
    (traj : List (ℝ × String)) (counts : String → ℕ → ℚ) :
    String → ℕ → ℚ :=
  (List.range numTimePoints).foldl (fun counts i =>
    let s := stateAtTime traj (tps.getD i 0)
    fun s2 j => if s2 = s ∧ j = i then counts s2 j + 1 else counts s2 j)
    counts

/-- The body of `runSimulation`'s `for (let m = 0; m < M; m++)` loop: sample
one trajectory (continuing the draw stream at the carried index) and tally
it on the grid.  The pair is `(counts, next draw index)`. -/
noncomputable def simStep (chain : CtmcDef) (maxTime : ℝ) (rand : ℕ → ℚ)
    (fuel numTimePoints : ℕ) (tps : List ℝ)
    (p : (String → ℕ → ℚ) × ℕ) : (String → ℕ → ℚ) × ℕ :=
  let tr := sampleTrajectoryFrom chain maxTime rand fuel p.2
  (tallyTrajectory numTimePoints tps tr.1 p.1, tr.2)

/-- `runSimulation`: `M` trajectories (the draw stream threads through all
of them in order), counted on the grid and divided by `M`.  Returns the
grid and the proportions table. -/
noncomputable def runSimulation (chain : CtmcDef) (M numTimePoints : ℕ)
    (maxTime : ℝ) (rand : ℕ → ℚ) (fuel : ℕ) :
    List ℝ × (String → ℕ → ℚ) :=
  let tps := timePoints numTimePoints maxTime
  let final := (List.range M).foldl
    (fun p _ => simStep chain maxTime rand fuel numTimePoints tps p)
    ((fun _ _ => 0), 0)
  (tps, fun s i => final.1 s i / (M : ℚ))

/-- A concrete two-state chain `A ⇄ B` with unit rates, used by witnesses. -/
def chainAB : CtmcDef :=
  ⟨["A", "B"], (fun s => if s = "A" then 1 else 0),
    [⟨"A", "B", 1⟩, ⟨"B", "A", 1⟩]⟩

/-- A two-state chain whose rates `1e-11` sit below the pivot tolerance
`1e-10` of the stationary solver. -/
def chainTiny : CtmcDef :=
  ⟨["A", "B"], (fun s => if s = "A" then 1 else 0),
    [⟨"A", "B", 1/10^11⟩, ⟨"B", "A", 1/10^11⟩]⟩

/-- The claimed bound on the scaled norm, stated as the spec states it
(strict inequality). -/
def scaledNormLtOne (A : ℕ → ℕ → ℚ) (n : ℕ) : Prop :=
  infNorm (fun i j => A i j / 2 ^ expScaleM (infNorm A n)) n < 1

/-- The transitions of a successful parse (`none` on failure). -/
def parsedTransitions (r : CtmcParseResult) : Option (List CtmcTransition) :=
  match r with
  | .ok c => some c.transitions
  | .error _ => none

/-! ## Theorems -/

/-! ### C1: the generator matrix -/

theorem addTransitions_apply (ts : List CtmcTransition)
    (Q : String → String → ℚ) (i j : String) :
    addTransitions ts Q i j =
      Q i j + ((ts.filter (fun t => t.from_ = i ∧ t.to_ = j)).map
        (fun t => t.rate)).sum := by
  induction ts generalizing Q with
  | nil => simp [addTransitions]
  | cons t ts ih =>
    show addTransitions ts _ i j = _
    rw [ih]
    beta_reduce
    by_cases h : t.from_ = i ∧ t.to_ = j
    · rw [List.filter_cons_of_pos (by simpa using h)]
      have hcond : i = t.from_ ∧ j = t.to_ := ⟨h.1.symm, h.2.symm⟩
      rw [if_pos hcond]
      simp only [List.map_cons, List.sum_cons]
      ring
    · rw [List.filter_cons_of_neg (by simpa using h)]
      have hcond : ¬ (i = t.from_ ∧ j = t.to_) :=
        fun hc => h ⟨hc.1.symm, hc.2.symm⟩
      rw [if_neg hcond]

theorem Q1_eq (chain : CtmcDef) (i j : String) :
    addTransitions chain.transitions (fun _ _ => 0) i j =
      ratePairSum chain i j := by
  rw [addTransitions_apply]
  simp [ratePairSum]

theorem buildRateMatrix_off (chain : CtmcDef) (i j : String) (hij : i ≠ j) :
    buildRateMatrix chain i j = ratePairSum chain i j := by
  show (if i = j then _ else _) = _
  rw [if_neg hij]
  exact Q1_eq chain i j

theorem buildRateMatrix_diag (chain : CtmcDef) (i : String) :
    buildRateMatrix chain i i =
      -(((chain.states.filter (fun j => i ≠ j)).map
        (fun j => buildRateMatrix chain i j)).sum) := by
  have h1 : ((chain.states.filter (fun j => i ≠ j)).map
      (fun j => buildRateMatrix chain i j)) =
      ((chain.states.filter (fun j => i ≠ j)).map
        (fun j => addTransitions chain.transitions (fun _ _ => 0) i j)) := by
    apply List.map_congr_left
    intro j hj
    have hij : i ≠ j := by simpa using List.of_mem_filter hj
    show (if i = j then _ else _) = _
    rw [if_neg hij]
  rw [h1]
  show (if i = i then _ else _) = _
  rw [if_pos rfl]

theorem sum_map_eq_self_add_filter {α : Type} [DecidableEq α]
    (l : List α) (hnd : l.Nodup) (i : α) (hi : i ∈ l) (f : α → ℚ) :
    (l.map f).sum = f i + ((l.filter (fun j => i ≠ j)).map f).sum := by
  induction l with
  | nil => cases hi
  | cons a rest ih =>
    rcases List.mem_cons.mp hi with h | h
    · subst h
      have hnotin : i ∉ rest := (List.nodup_cons.mp hnd).1
      have hfilter : rest.filter (fun j => i ≠ j) = rest := by
        apply List.filter_eq_self.mpr
        intro j hj
        simp only [decide_eq_true_eq]
        intro heq
        exact hnotin (heq ▸ hj)
      rw [List.filter_cons_of_neg (by simp), hfilter, List.map_cons,
        List.sum_cons]
    · have hne : i ≠ a := by
        rintro rfl
        exact (List.nodup_cons.mp hnd).1 h
      rw [List.filter_cons_of_pos (by simpa using hne), List.map_cons,
        List.sum_cons, List.map_cons, List.sum_cons,
        ih (List.nodup_cons.mp hnd).2 h]
      ring

/-- C1: for every chain definition (with its unique state names), the rate
matrix built by `buildRateMatrix` sums duplicate transitions into the
off-diagonal entries, puts the negated off-diagonal row sum on the diagonal,
and consequently every row sums to exactly 0. -/
theorem C1_rate_matrix (chain : CtmcDef) (hnd : chain.states.Nodup)
    (i : String) (hi : i ∈ chain.states) :
    (∀ j ∈ chain.states, i ≠ j →
        buildRateMatrix chain i j = ratePairSum chain i j) ∧
    buildRateMatrix chain i i =
      -(((chain.states.filter (fun j => i ≠ j)).map
        (fun j => buildRateMatrix chain i j)).sum) ∧
    ((chain.states.map (fun j => buildRateMatrix chain i j)).sum = 0) := by
  refine ⟨fun j _ hij => buildRateMatrix_off chain i j hij,
    buildRateMatrix_diag chain i, ?_⟩
  rw [sum_map_eq_self_add_filter chain.states hnd i hi
    (fun j => buildRateMatrix chain i j)]
  rw [buildRateMatrix_diag chain i]
  ring

/-- Witness for C1 at the two-state chain `A ⇄ B` with unit rates. -/
theorem C1_rate_matrix_witness :
    (["A", "B"] : List String).Nodup ∧ "A" ∈ (["A", "B"] : List String) ∧
    ((CtmcDef.mk ["A", "B"] (fun _ => 1/2)
        [⟨"A", "B", 1⟩, ⟨"B", "A", 1⟩]).states.map
      (fun j => buildRateMatrix (CtmcDef.mk ["A", "B"] (fun _ => 1/2)
        [⟨"A", "B", 1⟩, ⟨"B", "A", 1⟩]) "A" j)).sum = 0 := by
  refine ⟨by decide, by decide, ?_⟩
  exact (C1_rate_matrix (CtmcDef.mk ["A", "B"] (fun _ => 1/2)
    [⟨"A", "B", 1⟩, ⟨"B", "A", 1⟩]) (by decide) "A" (by decide)).2.2

/-! ### C2: irreducibility via breadth-first search -/

theorem mem_succs {chain : CtmcDef} {Q : String → String → ℚ}
    {s v : String} :
    v ∈ succs chain Q s ↔ v ∈ chain.states ∧ s ≠ v ∧ 0 < Q s v := by
  simp [succs, List.mem_filter]

theorem bfsPush_spec (vs q vis : List String) :
    ∃ new, bfsPush vs (q, vis) = (q ++ new, vis ++ new) ∧
      (∀ v ∈ new, v ∈ vs ∧ v ∉ vis) ∧ new.Nodup ∧
      (∀ v ∈ vs, v ∈ vis ++ new) := by
  induction vs generalizing q vis with
  | nil => exact ⟨[], by simp [bfsPush], by simp, List.nodup_nil, by simp⟩
  | cons v vs ih =>
    have hstep : bfsPush (v :: vs) (q, vis) =
        bfsPush vs (if v ∈ vis then (q, vis) else (q ++ [v], vis ++ [v])) := by
      simp only [bfsPush, List.foldl_cons]
    by_cases hv : v ∈ vis
    · rw [hstep, if_pos hv]
      obtain ⟨new, h1, h2, h3, h4⟩ := ih q vis
      refine ⟨new, h1, ?_, h3, ?_⟩
      · intro w hw
        obtain ⟨hw1, hw2⟩ := h2 w hw
        exact ⟨List.mem_cons_of_mem _ hw1, hw2⟩
      · intro w hw
        rcases List.mem_cons.mp hw with rfl | hw
        · exact List.mem_append_left _ hv
        · exact h4 w hw
    · rw [hstep, if_neg hv]
      obtain ⟨new, h1, h2, h3, h4⟩ := ih (q ++ [v]) (vis ++ [v])
      have hvnotin : v ∉ new := by
        intro hvn
        exact (h2 v hvn).2 (List.mem_append_right _ (List.mem_singleton.mpr rfl))
      refine ⟨v :: new, ?_, ?_, List.nodup_cons.mpr ⟨hvnotin, h3⟩, ?_⟩
      · rw [h1]
        simp [List.append_assoc]
      · intro w hw
        rcases List.mem_cons.mp hw with rfl | hw
        · exact ⟨List.mem_cons_self _ _, hv⟩
        · obtain ⟨hw1, hw2⟩ := h2 w hw
          refine ⟨List.mem_cons_of_mem _ hw1, fun hc => hw2 ?_⟩
          exact List.mem_append_left _ hc
      · intro w hw
        rcases List.mem_cons.mp hw with rfl | hw
        · simp
        · have := h4 w hw
          simpa [List.append_assoc] using this

theorem bfsVisit_prefix (succ : String → List String) :
    ∀ (fuel : ℕ) (q vis : List String),
      ∃ rest, bfsVisit succ fuel q vis = vis ++ rest := by
  intro fuel
  induction fuel with
  | zero => intro q vis; exact ⟨[], by simp [bfsVisit]⟩
  | succ fuel ih =>
    intro q vis
    cases q with
    | nil => exact ⟨[], by simp [bfsVisit]⟩
    | cons u q =>
      obtain ⟨new, h1, _, _, _⟩ := bfsPush_spec (succ u) q vis
      obtain ⟨rest, hrest⟩ := ih (q ++ new) (vis ++ new)
      refine ⟨new ++ rest, ?_⟩
      show bfsVisit succ fuel (bfsPush (succ u) (q, vis)).1
        (bfsPush (succ u) (q, vis)).2 = _
      rw [h1]
      simpa [List.append_assoc] using hrest

theorem bfsVisit_sound (succ : String → List String) (R : String → Prop)
    (hR : ∀ u, R u → ∀ v ∈ succ u, R v) :
    ∀ (fuel : ℕ) (q vis : List String),
      (∀ v ∈ vis, R v) → (∀ u ∈ q, R u) →
      ∀ v ∈ bfsVisit succ fuel q vis, R v := by
  intro fuel
  induction fuel with
  | zero => intro q vis hvis _ v hv; exact hvis v hv
  | succ fuel ih =>
    intro q vis hvis hq v hv
    cases q with
    | nil => exact hvis v hv
    | cons u q =>
      obtain ⟨new, h1, h2, _, _⟩ := bfsPush_spec (succ u) q vis
      have hnew : ∀ w ∈ new, R w := fun w hw =>
        hR u (hq u (List.mem_cons_self _ _)) w (h2 w hw).1
      have hvis2 : ∀ w ∈ vis ++ new, R w := by
        intro w hw
        rcases List.mem_append.mp hw with hw | hw
        · exact hvis w hw
        · exact hnew w hw
      have hq2 : ∀ w ∈ q ++ new, R w := by
        intro w hw
        rcases List.mem_append.mp hw with hw | hw
        · exact hq w (List.mem_cons_of_mem _ hw)
        · exact hnew w hw
      have : v ∈ bfsVisit succ fuel (q ++ new) (vis ++ new) := by
        have hred : bfsVisit succ (fuel + 1) (u :: q) vis =
            bfsVisit succ fuel (q ++ new) (vis ++ new) := by
          show bfsVisit succ fuel (bfsPush (succ u) (q, vis)).1
            (bfsPush (succ u) (q, vis)).2 = _
          rw [h1]
        rw [hred] at hv
        exact hv
      exact ih (q ++ new) (vis ++ new) hvis2 hq2 v this

theorem bfsVisit_subset (succ : String → List String)
    (allowed : List String)
    (hsucc : ∀ s, ∀ v ∈ succ s, v ∈ allowed) :
    ∀ (fuel : ℕ) (q vis : List String),
      (∀ v ∈ vis, v ∈ allowed) →
      ∀ v ∈ bfsVisit succ fuel q vis, v ∈ allowed := by
  intro fuel
  induction fuel with
  | zero => intro q vis hvis v hv; exact hvis v hv
  | succ fuel ih =>
    intro q vis hvis v hv
    cases q with
    | nil => exact hvis v hv
    | cons u q =>
      obtain ⟨new, h1, h2, _, _⟩ := bfsPush_spec (succ u) q vis
      have hred : bfsVisit succ (fuel + 1) (u :: q) vis =
          bfsVisit succ fuel (q ++ new) (vis ++ new) := by
        show bfsVisit succ fuel (bfsPush (succ u) (q, vis)).1
          (bfsPush (succ u) (q, vis)).2 = _
        rw [h1]
      rw [hred] at hv
      refine ih (q ++ new) (vis ++ new) ?_ v hv
      intro w hw
      rcases List.mem_append.mp hw with hw | hw
      · exact hvis w hw
      · exact hsucc u w (h2 w hw).1

theorem bfsVisit_nodup (succ : String → List String) :
    ∀ (fuel : ℕ) (q vis : List String),
      vis.Nodup → (bfsVisit succ fuel q vis).Nodup := by
  intro fuel
  induction fuel with
  | zero => intro q vis h; exact h
  | succ fuel ih =>
    intro q vis h
    cases q with
    | nil => exact h
    | cons u q =>
      obtain ⟨new, h1, h2, h3, _⟩ := bfsPush_spec (succ u) q vis
      have hred : bfsVisit succ (fuel + 1) (u :: q) vis =
          bfsVisit succ fuel (q ++ new) (vis ++ new) := by
        show bfsVisit succ fuel (bfsPush (succ u) (q, vis)).1
          (bfsPush (succ u) (q, vis)).2 = _
        rw [h1]
      rw [hred]
      refine ih (q ++ new) (vis ++ new) (List.nodup_append.mpr ⟨h, h3, ?_⟩)
      intro w hw hw2
      exact (h2 w hw2).2 hw

theorem bfsVisit_closed (succ : String → List String)
    (allowed : List String)
    (hsucc : ∀ s, ∀ v ∈ succ s, v ∈ allowed) :
    ∀ (fuel : ℕ) (q vis processed : List String),
      vis = processed ++ q →
      vis.Nodup →
      (∀ v ∈ vis, v ∈ allowed) →
      (∀ u ∈ processed, ∀ v ∈ succ u, v ∈ vis) →
      allowed.length + 1 - processed.length ≤ fuel →
      ∀ u ∈ bfsVisit succ fuel q vis, ∀ v ∈ succ u,
        v ∈ bfsVisit succ fuel q vis := by
  intro fuel
  induction fuel with
  | zero =>
    intro q vis processed hsplit hnd hsub _ hfuel
    exfalso
    have hpnd : processed.Nodup := by
      rw [hsplit] at hnd
      exact (List.nodup_append.mp hnd).1
    have hpsub : processed ⊆ allowed := by
      intro w hw
      exact hsub w (hsplit ▸ List.mem_append_left _ hw)
    have := (List.subperm_of_subset hpnd hpsub).length_le
    omega
  | succ fuel ih =>
    intro q vis processed hsplit hnd hsub hclosed hfuel
    cases q with
    | nil =>
      intro u hu v hv
      have hvis : bfsVisit succ (fuel + 1) [] vis = vis := by
        simp [bfsVisit]
      rw [hvis] at hu ⊢
      have : vis = processed := by simpa using hsplit
      exact hclosed u (this ▸ hu) v hv
    | cons u q =>
      obtain ⟨new, h1, h2, h3, h4⟩ := bfsPush_spec (succ u) q vis
      have hred : bfsVisit succ (fuel + 1) (u :: q) vis =
          bfsVisit succ fuel (q ++ new) (vis ++ new) := by
        show bfsVisit succ fuel (bfsPush (succ u) (q, vis)).1
          (bfsPush (succ u) (q, vis)).2 = _
        rw [h1]
      rw [hred]
      refine ih (q ++ new) (vis ++ new) (processed ++ [u]) ?_ ?_ ?_ ?_ ?_
      · rw [hsplit]
        simp [List.append_assoc]
      · refine List.nodup_append.mpr ⟨hnd, h3, ?_⟩
        intro w hw hw2
        exact (h2 w hw2).2 hw
      · intro w hw
        rcases List.mem_append.mp hw with hw | hw
        · exact hsub w hw
        · exact hsucc u w (h2 w hw).1
      · intro w hw v hv
        rcases List.mem_append.mp hw with hw | hw
        · exact List.mem_append_left _ (hclosed w hw v hv)
        · have : w = u := by simpa using hw
          subst this
          exact h4 v hv
      · have hple : processed.length ≤ allowed.length := by
          have hpnd : processed.Nodup := by
            rw [hsplit] at hnd
            exact (List.nodup_append.mp hnd).1
          have hpsub : processed ⊆ allowed := by
            intro w hw
            exact hsub w (hsplit ▸ List.mem_append_left _ hw)
          exact (List.subperm_of_subset hpnd hpsub).length_le
        simp only [List.length_append, List.length_singleton]
        omega

/-- BFS from `start` visits all `n` states exactly when every state is
reachable from `start` along positive-rate edges. -/
theorem bfs_reaches_iff (chain : CtmcDef) (hnd : chain.states.Nodup)
    (start : String) (hstart : start ∈ chain.states) :
    ((bfsVisit (succs chain (buildRateMatrix chain))
        (chain.states.length + 1) [start] [start]).length =
      chain.states.length) ↔
    (∀ j ∈ chain.states, reaches chain start j) := by
  set Q := buildRateMatrix chain with hQ
  set succ := succs chain Q with hsuccdef
  set result := bfsVisit succ (chain.states.length + 1) [start] [start]
    with hresult
  have hsucc_allowed : ∀ s, ∀ v ∈ succ s, v ∈ chain.states := by
    intro s v hv
    exact (mem_succs.mp hv).1
  have hsubset : ∀ v ∈ result, v ∈ chain.states := by
    refine bfsVisit_subset succ chain.states hsucc_allowed _ _ _ ?_
    intro v hv
    rwa [List.mem_singleton.mp hv]
  have hndres : result.Nodup :=
    bfsVisit_nodup succ _ _ _ (List.nodup_singleton start)
  have hstart_mem : start ∈ result := by
    obtain ⟨rest, hrest⟩ := bfsVisit_prefix succ
      (chain.states.length + 1) [start] [start]
    rw [hresult, hrest]
    exact List.mem_append_left _ (List.mem_singleton.mpr rfl)
  constructor
  · intro hlen j hj
    have hperm : result.Perm chain.states :=
      (List.subperm_of_subset hndres hsubset).perm_of_length_le
        (by omega)
    have hjres : j ∈ result := hperm.mem_iff.mpr hj
    refine bfsVisit_sound succ (reaches chain start) ?_ _ _ _ ?_ ?_ j hjres
    · intro u hu v hv
      refine Relation.ReflTransGen.tail hu ?_
      obtain ⟨hv1, hv2, hv3⟩ := mem_succs.mp hv
      exact ⟨hv1, hv2, hv3⟩
    · intro v hv
      rw [List.mem_singleton.mp hv]
      exact Relation.ReflTransGen.refl
    · intro v hv
      rw [List.mem_singleton.mp hv]
      exact Relation.ReflTransGen.refl
  · intro hreach
    have hclosed : ∀ u ∈ result, ∀ v ∈ succ u, v ∈ result := by
      refine bfsVisit_closed succ chain.states hsucc_allowed _ _ _ [] rfl
        (List.nodup_singleton start) ?_ (by simp) (by simp)
      intro v hv
      rwa [List.mem_singleton.mp hv]
    have hreach_mem : ∀ j, reaches chain start j → j ∈ result := by
      intro j hr
      induction hr with
      | refl => exact hstart_mem
      | tail _ hstep ih =>
        rename_i b c _
        obtain ⟨hc1, hc2, hc3⟩ := hstep
        exact hclosed b ih c (mem_succs.mpr ⟨hc1, hc2, hc3⟩)
    have hstates_sub : ∀ j ∈ chain.states, j ∈ result := by
      intro j hj
      exact hreach_mem j (hreach j hj)
    have h1 := (List.subperm_of_subset hndres hsubset).length_le
    have h2 := (List.subperm_of_subset hnd hstates_sub).length_le
    omega

/-- C2: `isIrreducible` returns `true` exactly when the positive-rate
transition graph is strongly connected (BFS from every state visits all `n`
states); in particular it is `true` for every chain with at most one state
(and, being a total Lean function, it never errors). -/
theorem C2_isIrreducible (chain : CtmcDef) (hnd : chain.states.Nodup) :
    (isIrreducible chain = true ↔ stronglyConnected chain) ∧
    (chain.states.length ≤ 1 → isIrreducible chain = true) := by
  constructor
  · by_cases hn : chain.states.length ≤ 1
    · simp only [isIrreducible, if_pos hn]
      constructor
      · intro _ i hi j hj
        cases hlen : chain.states.length with
        | zero =>
          exact absurd hi (by simp [List.length_eq_zero.mp hlen])
        | succ k =>
          have hk : k = 0 := by omega
          subst hk
          obtain ⟨a, ha⟩ := List.length_eq_one.mp hlen
          rw [ha] at hi hj
          have hia : i = a := List.mem_singleton.mp hi
          have hja : j = a := List.mem_singleton.mp hj
          rw [hia, hja]
          exact Relation.ReflTransGen.refl
      · intro _
        trivial
    · simp only [isIrreducible, if_neg hn]
      rw [List.all_eq_true]
      constructor
      · intro h i hi j hj
        have := h i hi
        rw [decide_eq_true_eq] at this
        exact (bfs_reaches_iff chain hnd i hi).mp this j hj
      · intro h start hstart
        rw [decide_eq_true_eq]
        exact (bfs_reaches_iff chain hnd start hstart).mpr
          (fun j hj => h start hstart j hj)
  · intro hn
    simp [isIrreducible, if_pos hn]

/-- Witness for C2 at the two-state chain `A ⇄ B`. -/
theorem C2_isIrreducible_witness :
    chainAB.states.Nodup ∧
    (isIrreducible chainAB = true ↔ stronglyConnected chainAB) :=
  ⟨by decide, (C2_isIrreducible chainAB (by decide)).1⟩

/-! ### C3 and C6: the stationary-distribution solver -/

theorem map_getD_range {α : Type} (l : List α) (d : α) :
    (List.range l.length).map (fun i => l.getD i d) = l := by
  induction l with
  | nil => simp
  | cons a t ih =>
    rw [List.length_cons, List.range_succ_eq_map, List.map_cons,
      List.map_map]
    have hcomp : ((fun i => (a :: t).getD i d) ∘ Nat.succ) =
        fun i => t.getD i d := by
      funext i
      simp
    rw [hcomp, ih]
    simp

/-- C3: `getStationaryDistribution` returns `null` exactly when the chain is
not irreducible; a returned mapping assigns a value to every state in order,
and every value is non-negative (negative solver output is clamped to 0). -/
theorem C3_stationary (chain : CtmcDef) :
    (getStationaryDistribution chain = none ↔ isIrreducible chain = false) ∧
    (∀ pi, getStationaryDistribution chain = some pi →
      pi.map Prod.fst = chain.states ∧ ∀ p ∈ pi, 0 ≤ p.2) := by
  by_cases h : isIrreducible chain = false
  · constructor
    · simp [getStationaryDistribution, h]
    · intro pi hpi
      simp [getStationaryDistribution, h] at hpi
  · constructor
    · by_cases hn : chain.states.length = 0 <;>
        simp [getStationaryDistribution, h, hn]
    · intro pi hpi
      by_cases hn : chain.states.length = 0
      · simp only [getStationaryDistribution, if_neg h, if_pos hn,
          Option.some.injEq] at hpi
        have hempty : chain.states = [] := List.length_eq_zero.mp hn
        subst hpi
        simp [hempty]
      · simp only [getStationaryDistribution, if_neg h, if_neg hn,
          Option.some.injEq] at hpi
        subst hpi
        constructor
        · rw [List.map_map]
          have : (Prod.fst ∘ fun i =>
              (chain.states.getD i "", max 0 ((stationaryElim chain).2 i))) =
              fun i => chain.states.getD i "" := rfl
          rw [this]
          exact map_getD_range chain.states ""
        · intro p hp
          obtain ⟨i, _, hpi⟩ := List.mem_map.mp hp
          rw [← hpi]
          exact le_max_left 0 _

/-- Witness for C3 at the two-state chain `A ⇄ B` with unit rates, whose
computed stationary distribution is `(1/2, 1/2)`. -/
theorem C3_stationary_witness :
    getStationaryDistribution chainAB = some [("A", 1/2), ("B", 1/2)] ∧
    ([("A", (1:ℚ)/2), ("B", 1/2)].map Prod.fst = chainAB.states ∧
      ∀ p ∈ [("A", (1:ℚ)/2), ("B", 1/2)], 0 ≤ p.2) := by
  have hval : getStationaryDistribution chainAB =
      some [("A", 1/2), ("B", 1/2)] := by
    with_unfolding_all decide
  exact ⟨hval, (C3_stationary chainAB).2 [("A", 1/2), ("B", 1/2)] hval⟩

/-- Counterexample for C6: on `chainTiny` the elimination's second column
has no entry above the tolerance after column 0 was processed (the
`pivot === -1` branch is taken, i.e. the pivot column magnitude is below
`1e-10` after swapping), and yet the solver returns a numeric mapping
instead of a no-solution result. -/
theorem C6_counterexample :
    ((List.range' 1 1).find? (fun row =>
        statEps < |((List.range 1).foldl (statElimStep 2)
          (stationarySystem chainTiny)).1 row 1|) = none) ∧
    getStationaryDistribution chainTiny = some [("A", 1), ("B", 0)] := by
  constructor
  · with_unfolding_all decide
  · with_unfolding_all decide

/-- C6 (amended): the stationary solver's inline Gaussian elimination never
signals a singular system: a pivot column below the tolerance is skipped
(`continue`), and for every irreducible chain the solver returns a numeric
mapping. -/
theorem C6_no_singular_signal (chain : CtmcDef)
    (h : isIrreducible chain = true) :
    ∃ pi, getStationaryDistribution chain = some pi := by
  have h2 : ¬ isIrreducible chain = false := by simp [h]
  by_cases hn : chain.states.length = 0
  · exact ⟨[], by simp [getStationaryDistribution, h2, hn]⟩
  · refine ⟨(List.range chain.states.length).map
      (fun i => (chain.states.getD i "", max 0 ((stationaryElim chain).2 i))),
      ?_⟩
    simp [getStationaryDistribution, h2, hn]

/-- Witness for C6's amended theorem at the tiny-rate chain. -/
theorem C6_no_singular_signal_witness :
    isIrreducible chainTiny = true ∧
    ∃ pi, getStationaryDistribution chainTiny = some pi := by
  have h : isIrreducible chainTiny = true := by with_unfolding_all decide
  exact ⟨h, C6_no_singular_signal chainTiny h⟩

/-! ### C4: the matrix exponential at t = 0 -/

theorem sum_map_zero (l : List ℕ) (f : ℕ → ℚ) (h : ∀ x ∈ l, f x = 0) :
    (l.map f).sum = 0 := by
  induction l with
  | nil => simp
  | cons a rest ih =>
    rw [List.map_cons, List.sum_cons, h a (List.mem_cons_self _ _),
      ih (fun x hx => h x (List.mem_cons_of_mem _ hx))]
    simp

theorem infNorm_zero (n : ℕ) : infNorm (fun _ _ => (0 : ℚ)) n = 0 := by
  unfold infNorm
  have hrow : ∀ i, rowAbsSum (fun _ _ => (0 : ℚ)) n i = 0 := by
    intro i
    unfold rowAbsSum
    exact sum_map_zero _ _ (fun x _ => abs_zero)
  have : ∀ l : List ℕ,
      l.foldl (fun acc i => max acc (rowAbsSum (fun _ _ => (0 : ℚ)) n i)) 0
        = 0 := by
    intro l
    induction l with
    | nil => rfl
    | cons a rest ih =>
      rw [List.foldl_cons, hrow a, max_self]
      exact ih
  exact this _

theorem expScaleM_zero : expScaleM 0 = 0 := by
  simp [expScaleM]

theorem gjPivot_id (n col : ℕ) : gjPivot idMat n col = col := by
  unfold gjPivot
  have key : ∀ l : List ℕ, (∀ r ∈ l, col < r) →
      l.foldl (fun p row =>
        if |idMat row col| > |idMat p col| then row else p) col = col := by
    intro l
    induction l with
    | nil => intro _; rfl
    | cons r rest ih =>
      intro h
      rw [List.foldl_cons]
      have hr : col < r := h r (List.mem_cons_self _ _)
      have h1 : idMat r col = 0 := if_neg (by omega)
      have h2 : idMat col col = 1 := if_pos rfl
      have hng : ¬ (|idMat r col| > |idMat col col|) := by
        rw [h1, h2]
        norm_num
      rw [if_neg hng]
      exact ih (fun x hx => h x (List.mem_cons_of_mem _ hx))
  apply key
  intro r hr
  have := List.mem_range'_1.mp hr
  omega

theorem gjStep_id (n col : ℕ) : gjStep n (idMat, idMat) col = (idMat, idMat) := by
  simp only [gjStep, gjPivot_id]
  have h2 : idMat col col = 1 := if_pos rfl
  have hguard : ¬ (|idMat col col| < statEps) := by
    rw [h2, abs_one]
    norm_num [statEps]
  rw [if_neg hguard, Prod.mk.injEq]
  constructor
  · funext i j
    by_cases hic : i = col
    · subst hic
      simp [h2]
    · simp only [hic, if_neg hic, ite_false]
      simp [hic, if_neg hic]
      exact Or.inl (if_neg hic)
  · funext i j
    by_cases hic : i = col
    · subst hic
      simp [h2]
    · simp only [hic, if_neg hic, ite_false]
      simp [hic, if_neg hic]
      exact Or.inl (if_neg hic)

theorem gaussJordanInverse_id (n : ℕ) :
    gaussJordanInverse n idMat = idMat := by
  unfold gaussJordanInverse
  have key : ∀ l : List ℕ, l.foldl (gjStep n) (idMat, idMat) = (idMat, idMat) := by
    intro l
    induction l with
    | nil => rfl
    | cons c rest ih =>
      rw [List.foldl_cons, gjStep_id]
      exact ih
  rw [key]

theorem matMult_zero (n : ℕ) :
    matMult n (fun _ _ => (0 : ℚ)) (fun _ _ => (0 : ℚ)) =
      fun _ _ => (0 : ℚ) := by
  funext i j
  exact sum_map_zero _ _ (fun x _ => by simp)

theorem sum_range_ite (n i : ℕ) (hi : i < n) (g : ℕ → ℚ) :
    ((List.range n).map (fun k => if i = k then g k else 0)).sum = g i := by
  induction n with
  | zero => omega
  | succ n ih =>
    rw [List.range_succ, List.map_append, List.sum_append]
    by_cases h : i = n
    · subst h
      rw [sum_map_zero _ _ (fun x hx => ?_)]
      · simp
      · have : x < i := List.mem_range.mp hx
        rw [if_neg (by omega)]
    · have hi2 : i < n := by omega
      rw [ih hi2]
      simp [h]

theorem matMult_id_id (n i j : ℕ) (hi : i < n) :
    matMult n idMat idMat i j = idMat i j := by
  unfold matMult
  have hfun : (fun k => idMat i k * idMat k j) =
      fun k => if i = k then idMat k j else 0 := by
    funext k
    by_cases h : i = k
    · subst h
      simp [idMat]
    · simp [idMat, if_neg h]
  rw [hfun, sum_range_ite n i hi]

theorem matrixExponential_zero (Q : String → String → ℚ)
    (states : List String) :
    matrixExponential Q states 0 =
      matMult states.length idMat idMat := by
  unfold matrixExponential
  simp only [mul_zero]
  rw [infNorm_zero, expScaleM_zero]
  simp only [pow_zero, div_one, Function.iterate_zero_apply]
  rw [matMult_zero]
  have hnum : matAdd (matAdd idMat (fun _ _ => (0:ℚ)) 1 (1 / 2))
      (fun _ _ => (0:ℚ)) 1 (1 / 12) = idMat := by
    funext i j
    simp [matAdd]
  have hden : matAdd (matAdd idMat (fun _ _ => (0:ℚ)) 1 (-(1 / 2)))
      (fun _ _ => (0:ℚ)) 1 (1 / 12) = idMat := by
    funext i j
    simp [matAdd]
  rw [hnum, hden, gaussJordanInverse_id]

/-- C4: for every generator matrix built from a chain with at least one
state, the matrix exponential at `t = 0` is the identity matrix (here even
exactly, hence within the claimed `1e-6` tolerance). -/
theorem C4_matrixExponential_t0 (chain : CtmcDef)
    (hne : 1 ≤ chain.states.length) (i j : ℕ)
    (hi : i < chain.states.length) (hj : j < chain.states.length) :
    |matrixExponential (buildRateMatrix chain) chain.states 0 i j -
      idMat i j| ≤ 1 / 10 ^ 6 := by
  rw [matrixExponential_zero, matMult_id_id _ _ _ hi, sub_self, abs_zero]
  norm_num

/-- Witness for C4 at the two-state chain `A ⇄ B`, entry (0, 0). -/
theorem C4_matrixExponential_t0_witness :
    1 ≤ chainAB.states.length ∧ (0 : ℕ) < chainAB.states.length ∧
    |matrixExponential (buildRateMatrix chainAB) chainAB.states 0 0 0 -
      idMat 0 0| ≤ 1 / 10 ^ 6 :=
  ⟨by decide, by decide,
    C4_matrixExponential_t0 chainAB (by decide) 0 0 (by decide) (by decide)⟩

/-! ### C5: the scaling step of the matrix exponential -/

theorem sum_map_div (l : List ℕ) (f : ℕ → ℚ) (c : ℚ) :
    (l.map (fun j => f j / c)).sum = (l.map f).sum / c := by
  induction l with
  | nil => simp
  | cons a rest ih =>
    rw [List.map_cons, List.sum_cons, ih, List.map_cons, List.sum_cons,
      add_div]

theorem rowAbsSum_div (A : ℕ → ℕ → ℚ) (n i : ℕ) (c : ℚ) (hc : 0 < c) :
    rowAbsSum (fun i j => A i j / c) n i = rowAbsSum A n i / c := by
  unfold rowAbsSum
  have : (fun j => |A i j / c|) = fun j => |A i j| / c := by
    funext j
    rw [abs_div, abs_of_pos hc]
  rw [this, sum_map_div]

theorem infNorm_div (A : ℕ → ℕ → ℚ) (n : ℕ) (c : ℚ) (hc : 0 < c) :
    infNorm (fun i j => A i j / c) n = infNorm A n / c := by
  unfold infNorm
  have key : ∀ (l : List ℕ) (acc : ℚ),
      l.foldl (fun acc i =>
        max acc (rowAbsSum (fun i j => A i j / c) n i)) (acc / c) =
      (l.foldl (fun acc i => max acc (rowAbsSum A n i)) acc) / c := by
    intro l
    induction l with
    | nil => intro acc; rfl
    | cons a rest ih =>
      intro acc
      rw [List.foldl_cons, List.foldl_cons, rowAbsSum_div A n a c hc,
        max_div_div_right hc.le, ih]
  have := key (List.range n) 0
  rwa [zero_div] at this

/-- Counterexample for C5: the 1×1 matrix `[1]` has infinity norm `1 > 0`,
`m = max(0, ceil(log2 1)) = 0`, and the scaled matrix still has norm
exactly `1`, not `< 1`. -/
theorem C5_counterexample :
    0 < infNorm (fun _ _ => (1 : ℚ)) 1 ∧
    ¬ scaledNormLtOne (fun _ _ => (1 : ℚ)) 1 := by
  constructor
  · with_unfolding_all decide
  · unfold scaledNormLtOne
    with_unfolding_all decide

/-- C5 (amended): for every matrix with positive infinity norm, scaling by
`2^m` with `m = max(0, ceil(log2 ‖Qt‖))` brings the norm to at most `1`
(equality occurs exactly at norms that are powers of two with non-negative
exponent, e.g. norm 1). -/
theorem C5_scaled_norm_le_one (A : ℕ → ℕ → ℚ) (n : ℕ)
    (hpos : 0 < infNorm A n) :
    infNorm (fun i j => A i j / 2 ^ expScaleM (infNorm A n)) n ≤ 1 := by
  set norm := infNorm A n with hnorm
  have hc : (0 : ℚ) < 2 ^ expScaleM norm := by positivity
  rw [infNorm_div A n _ hc, div_le_one hc, ← hnorm]
  have hclog : norm ≤ (2 : ℚ) ^ Int.clog 2 norm :=
    Int.self_le_zpow_clog (by norm_num) norm
  have hm : expScaleM norm = (Int.clog 2 norm).toNat := by
    rw [expScaleM, if_pos hpos]
  rw [hm]
  refine le_trans hclog ?_
  by_cases hcl : 0 ≤ Int.clog 2 norm
  · rw [← zpow_natCast (2 : ℚ) (Int.clog 2 norm).toNat,
      Int.toNat_of_nonneg hcl]
  · have h1 : (2 : ℚ) ^ Int.clog 2 norm ≤ 1 :=
      zpow_le_one_of_nonpos₀ (by norm_num) (by omega)
    have h2 : (Int.clog 2 norm).toNat = 0 := by omega
    rw [h2, pow_zero]
    exact h1

/-- Witness for C5's amended theorem at the 1×1 matrix `[1]`. -/
theorem C5_scaled_norm_le_one_witness :
    0 < infNorm (fun _ _ => (1 : ℚ)) 1 ∧
    infNorm (fun i j => (fun _ _ => (1 : ℚ)) i j /
      2 ^ expScaleM (infNorm (fun _ _ => (1 : ℚ)) 1)) 1 ≤ 1 :=
  ⟨by with_unfolding_all decide,
    C5_scaled_norm_le_one (fun _ _ => (1 : ℚ)) 1
      (by with_unfolding_all decide)⟩

/-! ### C7 and C8: parser error handling -/

/-- Counterexample for C7: an input whose `Initial distribution:` header
precedes its `States:` header parses successfully (no header-order check),
as long as the final section is `Rates`. -/
theorem C7_counterexample :
    (parseCtmcDSL
      "Initial distribution: uniform\nStates: A\nRates:").isOk = true := by
  with_unfolding_all decide

theorem procParts_ok_sound (states : List String) :
    ∀ (parts : List (List Char)) (acc res : List CtmcTransition),
      procParts states parts acc = .ok res →
      (∀ t ∈ acc, 0 < t.rate) → ∀ t ∈ res, 0 < t.rate := by
  intro parts
  induction parts with
  | nil =>
    intro acc res h hacc
    simp only [procParts] at h
    cases h
    exact hacc
  | cons part rest ih =>
    intro acc res h hacc
    simp only [procParts] at h
    split at h
    · exact ih acc res h hacc
    · split at h
      · exact Except.noConfusion h
      · split at h
        · exact Except.noConfusion h
        · split at h
          · exact Except.noConfusion h
          · split at h
            · exact Except.noConfusion h
            · rename_i r hfloat
              split at h
              · exact Except.noConfusion h
              · rename_i hrle
                refine ih _ res h ?_
                intro t ht
                rcases List.mem_append.mp ht with ht | ht
                · exact hacc t ht
                · have : t = ⟨_, _, r⟩ := List.mem_singleton.mp ht
                  rw [this]
                  push_neg at hrle
                  exact hrle

theorem procRateLines_ok_sound (states : List String) :
    ∀ (ls : List (List Char)) (acc res : List CtmcTransition),
      procRateLines states ls acc = .ok res →
      (∀ t ∈ acc, 0 < t.rate) → ∀ t ∈ res, 0 < t.rate := by
  intro ls
  induction ls with
  | nil =>
    intro acc res h hacc
    simp only [procRateLines] at h
    cases h
    exact hacc
  | cons line rest ih =>
    intro acc res h hacc
    simp only [procRateLines] at h
    split at h
    · exact Except.noConfusion h
    · rename_i acc2 hacc2
      exact ih acc2 res h
        (procParts_ok_sound states _ acc acc2 hacc2 hacc)

/-- C8 (amended): every successful parse contains only transitions with
rate strictly greater than 0 — a rate entry that matches the rate pattern
with an unparsable or non-positive rate makes the parse fail, while an
entry that does not match the pattern at all (for example a negative
number, whose minus sign the pattern `[\d.]+` cannot match) is silently
dropped rather than rejected. -/
theorem C8_rates_positive (text : String) (ts : List CtmcTransition)
    (h : parsedTransitions (parseCtmcDSL text) = some ts) :
    ∀ t ∈ ts, 0 < t.rate := by
  simp only [parseCtmcDSL] at h
  split at h
  · simp [parsedTransitions] at h
  · split at h
    · simp [parsedTransitions] at h
    · split at h
      · simp [parsedTransitions] at h
      · split at h
        · simp [parsedTransitions] at h
        · split at h
          · simp [parsedTransitions] at h
          · split at h
            · simp [parsedTransitions] at h
            · split at h
              · simp [parsedTransitions] at h
              · rename_i transitions htrans
                split at h
                · simp [parsedTransitions] at h
                · simp only [parsedTransitions, Option.some.injEq] at h
                  rw [← h]
                  exact procRateLines_ok_sound _ _ [] transitions htrans
                    (by intro t ht; cases ht)

/-- Counterexample for C8: a Rates entry `A -> B : -1` (non-positive rate)
does not make the parse fail; it is silently dropped, yielding a successful
parse with no transitions at all. -/
theorem C8_counterexample :
    parsedTransitions (parseCtmcDSL
      "States: A, B\nInitial distribution: uniform\nRates: A -> B : -1") =
      some [] := by
  with_unfolding_all decide

/-- Witness for C8's amended theorem: a valid input with one rate entry. -/
theorem C8_rates_positive_witness :
    parsedTransitions (parseCtmcDSL
      "States: A, B\nInitial distribution: uniform\nRates: A -> B : 2") =
      some [⟨"A", "B", 2⟩] ∧
    0 < (CtmcTransition.mk "A" "B" 2).rate := by
  have hp : parsedTransitions (parseCtmcDSL
      "States: A, B\nInitial distribution: uniform\nRates: A -> B : 2") =
      some [⟨"A", "B", 2⟩] := by
    with_unfolding_all decide
  exact ⟨hp, C8_rates_positive _ _ hp ⟨"A", "B", 2⟩
    (List.mem_singleton.mpr rfl)⟩

/-- C7 (amended): the parser does not enforce section-header order.  What
it does guarantee is that a content line before any header fails (the
collector's only error exit) and that a successful parse requires the
section in effect after the line scan to be `Rates`; a later header before
an earlier one (say `Initial distribution:` before `States:`) is accepted
whenever `Rates` still ends the scan. -/
theorem C7_last_section_rates (text : String)
    (h : (parseCtmcDSL text).isOk = true) :
    ∃ acc, collectLines (splitOnCharL '\n' (trimL text.data))
        ⟨none, [], [], []⟩ = .ok acc ∧ acc.sect = some Sect.rates := by
  simp only [parseCtmcDSL] at h
  split at h
  · simp [CtmcParseResult.isOk] at h
  · split at h
    · simp [CtmcParseResult.isOk] at h
    · rename_i acc hacc
      refine ⟨acc, hacc, ?_⟩
      split at h
      · simp [CtmcParseResult.isOk] at h
      · split at h
        · simp [CtmcParseResult.isOk] at h
        · split at h
          · simp [CtmcParseResult.isOk] at h
          · split at h
            · simp [CtmcParseResult.isOk] at h
            · split at h
              · simp [CtmcParseResult.isOk] at h
              · split at h
                · simp [CtmcParseResult.isOk] at h
                · rename_i hsect
                  exact not_not.mp hsect

/-- Witness for C7's amended theorem at a well-ordered valid input. -/
theorem C7_last_section_rates_witness :
    (parseCtmcDSL
      "States: A, B\nInitial distribution: uniform\nRates: A -> B : 2").isOk
      = true ∧
    ∃ acc, collectLines (splitOnCharL '\n' (trimL
      ("States: A, B\nInitial distribution: uniform\nRates: A -> B : 2" :
        String).data)) ⟨none, [], [], []⟩ = .ok acc ∧
      acc.sect = some Sect.rates := by
  have h : (parseCtmcDSL
      "States: A, B\nInitial distribution: uniform\nRates: A -> B : 2").isOk
      = true := by
    with_unfolding_all decide
  exact ⟨h, C7_last_section_rates _ h⟩

/-! ### C9: trajectory invariants -/

theorem jumpRow_totalRate_nonneg (chain : CtmcDef) (s : String)
    (hrates : ∀ t ∈ chain.transitions, 0 < t.rate) :
    0 ≤ (jumpRow chain s).totalRate := by
  unfold jumpRow
  refine List.sum_nonneg ?_
  intro x hx
  obtain ⟨t, ht, hxt⟩ := List.mem_map.mp hx
  rw [← hxt]
  exact (hrates t (List.mem_filter.mp ht).1).le

theorem sampleJump_holding_pos (chain : CtmcDef) (s : String) (u1 u2 : ℚ)
    (h : ℝ) (hrates : ∀ t ∈ chain.transitions, 0 < t.rate)
    (hu1 : 0 ≤ u1) (hu2 : u1 < 1)
    (hj : (sampleJump chain s u1 u2).2 = some h) : 0 < h := by
  simp only [sampleJump] at hj
  split at hj
  · simp at hj
  · rename_i row hrow
    split at hj
    · simp at hj
    · rename_i hrate0
      simp only at hj
      split at hj
      · simp at hj
      · rename_i hu0
        rw [Option.some.injEq] at hj
        have hrowval : row = jumpRow chain s := by
          unfold jumpMapGet at hrow
          split at hrow
          · exact (Option.some.injEq _ _ ▸ hrow).symm
          · exact Option.noConfusion hrow
        have htr_pos : (0 : ℚ) < row.totalRate := by
          rw [hrowval]
          refine lt_of_le_of_ne (jumpRow_totalRate_nonneg chain s hrates) ?_
          rw [hrowval] at hrate0
          exact fun hc => hrate0 hc.symm
        have hu1pos : (0 : ℚ) < u1 := lt_of_le_of_ne hu1 (Ne.symm hu0)
        have hlog : Real.log (u1 : ℝ) < 0 :=
          Real.log_neg (by exact_mod_cast hu1pos) (by exact_mod_cast hu2)
        rw [← hj]
        apply div_pos (by linarith) (by exact_mod_cast htr_pos)

theorem sampleBody_invariant (chain : CtmcDef) (maxTime : ℝ)
    (rand : ℕ → ℚ) (hrand : ∀ i, 0 ≤ rand i ∧ rand i < 1)
    (hrates : ∀ t ∈ chain.transitions, 0 < t.rate) :
    ∀ (fuel idx : ℕ) (tcur : ℝ) (scur : String)
      (traj : List (ℝ × String)),
      (∀ p ∈ traj, p.1 ≤ tcur ∧ p.1 < maxTime) →
      List.Chain' (fun p q => p.1 < q.1) traj →
      ∃ rest,
        (sampleBody chain maxTime rand fuel idx tcur scur traj).1 =
          traj ++ rest ∧
        (∀ p ∈ traj ++ rest, p.1 < maxTime) ∧
        List.Chain' (fun p q => p.1 < q.1) (traj ++ rest) := by
  intro fuel
  induction fuel with
  | zero =>
    intro idx tcur scur traj hbound hchain
    exact ⟨[], by simp [sampleBody], by
      simpa using fun p hp => (hbound p hp).2, by simpa using hchain⟩
  | succ fuel ih =>
    intro idx tcur scur traj hbound hchain
    by_cases htc : tcur < maxTime
    · have hred : sampleBody chain maxTime rand (fuel + 1) idx tcur scur traj
          = if tcur < maxTime then
              let j := sampleJump chain scur (rand idx) (rand (idx + 1))
              let idx2 := if isAbsorbing chain scur then idx else idx + 2
              match j.2 with
              | none => (traj, idx2)
              | some h =>
                if maxTime ≤ tcur + h then (traj, idx2)
                else
                  sampleBody chain maxTime rand fuel idx2 (tcur + h) j.1
                    (traj ++ [(tcur + h, j.1)])
            else (traj, idx) := rfl
      rw [hred, if_pos htc]
      cases hj : (sampleJump chain scur (rand idx) (rand (idx + 1))).2 with
      | none =>
        simp only [hj]
        exact ⟨[], by simp, by
          simpa using fun p hp => (hbound p hp).2, by simpa using hchain⟩
      | some h =>
        simp only [hj]
        by_cases hge : maxTime ≤ tcur + h
        · rw [if_pos hge]
          exact ⟨[], by simp, by
            simpa using fun p hp => (hbound p hp).2, by simpa using hchain⟩
        · rw [if_neg hge]
          have hpos : 0 < h :=
            sampleJump_holding_pos chain scur (rand idx) (rand (idx + 1)) h
              hrates (hrand idx).1 (hrand idx).2 hj
          have hlt : tcur + h < maxTime := lt_of_not_le hge
          have hbound2 : ∀ p ∈ traj ++ [(tcur + h,
              (sampleJump chain scur (rand idx) (rand (idx + 1))).1)],
              p.1 ≤ tcur + h ∧ p.1 < maxTime := by
            intro p hp
            rcases List.mem_append.mp hp with hp | hp
            · exact ⟨by linarith [(hbound p hp).1], (hbound p hp).2⟩
            · have : p = (tcur + h, _) := List.mem_singleton.mp hp
              rw [this]
              exact ⟨le_refl _, hlt⟩
          have hchain2 : List.Chain' (fun p q => p.1 < q.1)
              (traj ++ [(tcur + h,
                (sampleJump chain scur (rand idx) (rand (idx + 1))).1)]) := by
            rw [List.chain'_append]
            refine ⟨hchain, List.chain'_singleton _, ?_⟩
            intro x hx y hy
            have hxmem : x ∈ traj := by
              obtain ⟨hne, hxl⟩ := List.mem_getLast?_eq_getLast hx
              rw [hxl]
              exact List.getLast_mem hne
            have hy2 : y = (tcur + h,
                (sampleJump chain scur (rand idx) (rand (idx + 1))).1) := by
              have := hy
              simp only [List.head?_cons, Option.mem_def,
                Option.some.injEq] at this
              exact this.symm
            rw [hy2]
            have hx1 := (hbound x hxmem).1
            show x.1 < tcur + h
            linarith
          obtain ⟨rest, hr1, hr2, hr3⟩ := ih
            (if isAbsorbing chain scur then idx else idx + 2)
            (tcur + h)
            (sampleJump chain scur (rand idx) (rand (idx + 1))).1
            (traj ++ [(tcur + h,
              (sampleJump chain scur (rand idx) (rand (idx + 1))).1)])
            hbound2 hchain2
          refine ⟨(tcur + h,
            (sampleJump chain scur (rand idx) (rand (idx + 1))).1) :: rest,
            ?_, ?_, ?_⟩
          · rw [hr1]
            simp [List.append_assoc]
          · intro p hp
            refine hr2 p ?_
            simpa [List.append_assoc] using hp
          · have := hr3
            rwa [List.append_assoc, List.singleton_append] at this
    · have hred : sampleBody chain maxTime rand (fuel + 1) idx tcur scur traj
          = if tcur < maxTime then
              let j := sampleJump chain scur (rand idx) (rand (idx + 1))
              let idx2 := if isAbsorbing chain scur then idx else idx + 2
              match j.2 with
              | none => (traj, idx2)
              | some h =>
                if maxTime ≤ tcur + h then (traj, idx2)
                else
                  sampleBody chain maxTime rand fuel idx2 (tcur + h) j.1
                    (traj ++ [(tcur + h, j.1)])
            else (traj, idx) := rfl
      rw [hred, if_neg htc]
      exact ⟨[], by simp, by
        simpa using fun p hp => (hbound p hp).2, by simpa using hchain⟩

/-- C9: for every valid chain, positive horizon, and draw stream in
`[0, 1)`, the sampled trajectory is non-empty, starts with `(0, s)` where
`s` is the state sampled from the initial distribution, has strictly
increasing event times, and every event time is strictly below the horizon
(for every loop fuel, i.e. for every finite prefix of the source's
potentially unbounded loop). -/
theorem C9_sampleTrajectory (chain : CtmcDef) (maxTime : ℝ)
    (rand : ℕ → ℚ) (fuel : ℕ)
    (hrand : ∀ i, 0 ≤ rand i ∧ rand i < 1)
    (hmax : 0 < maxTime)
    (hrates : ∀ t ∈ chain.transitions, 0 < t.rate) :
    sampleTrajectory chain maxTime rand fuel ≠ [] ∧
    (sampleTrajectory chain maxTime rand fuel).head? =
      some (0, sampleFromDistribution chain.initialDistribution
        chain.states (rand 0)) ∧
    List.Chain' (fun p q => p.1 < q.1)
      (sampleTrajectory chain maxTime rand fuel) ∧
    ∀ p ∈ sampleTrajectory chain maxTime rand fuel, p.1 < maxTime := by
  set start := sampleFromDistribution chain.initialDistribution
    chain.states (rand 0) with hstart
  have hinit_bound : ∀ p ∈ [((0 : ℝ), start)], p.1 ≤ 0 ∧ p.1 < maxTime := by
    intro p hp
    have : p = (0, start) := List.mem_singleton.mp hp
    rw [this]
    exact ⟨le_refl _, hmax⟩
  obtain ⟨rest, hr1, hr2, hr3⟩ := sampleBody_invariant chain maxTime rand
    hrand hrates fuel 1 0 start [((0 : ℝ), start)] hinit_bound
    (List.chain'_singleton _)
  have htr : sampleTrajectory chain maxTime rand fuel =
      ((0 : ℝ), start) :: rest := by
    have hunfold : sampleTrajectory chain maxTime rand fuel =
        (sampleBody chain maxTime rand fuel 1 0 start [((0 : ℝ), start)]).1 := by
      simp only [sampleTrajectory, sampleTrajectoryFrom, Nat.zero_add,
        ← hstart]
    rw [hunfold, hr1, List.singleton_append]
  rw [htr]
  refine ⟨List.cons_ne_nil _ _, rfl, ?_, ?_⟩
  · have := hr3
    rwa [List.singleton_append] at this
  · intro p hp
    refine hr2 p ?_
    rwa [List.singleton_append]

/-- Witness for C9 at the two-state chain, constant draw 1/2, horizon 1. -/
theorem C9_sampleTrajectory_witness :
    (0 : ℝ) < 1 ∧
    (sampleTrajectory chainAB 1 (fun _ => 1/2) 5).head? =
      some (0, sampleFromDistribution chainAB.initialDistribution
        chainAB.states ((fun _ => (1 : ℚ)/2) 0)) :=
  ⟨by norm_num,
    (C9_sampleTrajectory chainAB 1 (fun _ => 1/2) 5
      (fun i => ⟨by norm_num, by norm_num⟩) (by norm_num)
      (by intro t ht; fin_cases ht <;> norm_num)).2.1⟩

/-! ### C10: the Monte-Carlo driver's proportions -/

theorem getLastD_mem_of_ne_nil {α : Type} (l : List α) (d : α)
    (h : l ≠ []) : l.getLastD d ∈ l := by
  rw [List.getLastD_eq_getLast?, List.getLast?_eq_getLast l h]
  exact List.getLast_mem h

theorem sfdGo_mem (dist : String → ℚ) (u : ℚ) :
    ∀ (l : List String) (c : ℚ) (s : String),
      sfdGo dist u l c = some s → s ∈ l := by
  intro l
  induction l with
  | nil => intro c s h; exact Option.noConfusion h
  | cons a rest ih =>
    intro c s h
    simp only [sfdGo] at h
    split at h
    · rw [Option.some.injEq] at h
      rw [← h]
      exact List.mem_cons_self _ _
    · exact List.mem_cons_of_mem _ (ih _ s h)

theorem sampleFromDistribution_mem (dist : String → ℚ)
    (states : List String) (u : ℚ) (hne : states ≠ []) :
    sampleFromDistribution dist states u ∈ states := by
  unfold sampleFromDistribution
  cases hfind : sfdGo dist u states 0 with
  | some s => exact sfdGo_mem dist u states 0 s hfind
  | none =>
    have hlen : states.length - 1 < states.length :=
      Nat.sub_lt (List.length_pos.mpr hne) Nat.one_pos
    rw [List.getD_eq_getElem states "" hlen]
    exact List.getElem_mem _

theorem nextFromCumul_mem (from_ : String) (S : List String)
    (hfrom : from_ ∈ S) :
    ∀ (tos : List String) (cums : List ℚ) (u : ℚ),
      (∀ t ∈ tos, t ∈ S) → nextFromCumul from_ tos cums u ∈ S := by
  intro tos
  induction tos with
  | nil => intro cums u _; cases cums <;> exact hfrom
  | cons t ts ih =>
    intro cums u htos
    cases cums with
    | nil => exact hfrom
    | cons c cs =>
      simp only [nextFromCumul]
      split
      · exact htos t (List.mem_cons_self _ _)
      · exact ih cs u (fun x hx => htos x (List.mem_cons_of_mem _ hx))

theorem sampleJump_next_mem (chain : CtmcDef) (s : String) (u1 u2 : ℚ)
    (hvalid : ValidChain chain) (hs : s ∈ chain.states) :
    (sampleJump chain s u1 u2).1 ∈ chain.states := by
  simp only [sampleJump]
  split
  · exact hs
  · rename_i row hrow
    split
    · exact hs
    · have hrowval : row = jumpRow chain s := by
        unfold jumpMapGet at hrow
        split at hrow
        all_goals first
        | exact hrow.symm
        | exact (Option.some.inj hrow).symm
        | simp at hrow
      simp only
      refine nextFromCumul_mem s chain.states hs row.to_ row.cumul _ ?_
      intro t ht
      rw [hrowval] at ht
      unfold jumpRow at ht
      simp only [List.mem_map] at ht
      obtain ⟨tr, htr, htt⟩ := ht
      rw [← htt]
      exact (hvalid.2.2 tr (List.mem_filter.mp htr).1).2.1

theorem sampleBody_states (chain : CtmcDef) (maxTime : ℝ) (rand : ℕ → ℚ)
    (hvalid : ValidChain chain) :
    ∀ (fuel idx : ℕ) (tcur : ℝ) (scur : String)
      (traj : List (ℝ × String)),
      scur ∈ chain.states → (∀ p ∈ traj, p.2 ∈ chain.states) →
      ∀ p ∈ (sampleBody chain maxTime rand fuel idx tcur scur traj).1,
        p.2 ∈ chain.states := by
  intro fuel
  induction fuel with
  | zero => intro idx tcur scur traj _ htraj p hp; exact htraj p hp
  | succ fuel ih =>
    intro idx tcur scur traj hscur htraj p hp
    rw [show sampleBody chain maxTime rand (fuel + 1) idx tcur scur traj
        = if tcur < maxTime then
            let j := sampleJump chain scur (rand idx) (rand (idx + 1))
            let idx2 := if isAbsorbing chain scur then idx else idx + 2
            match j.2 with
            | none => (traj, idx2)
            | some h =>
              if maxTime ≤ tcur + h then (traj, idx2)
              else
                sampleBody chain maxTime rand fuel idx2 (tcur + h) j.1
                  (traj ++ [(tcur + h, j.1)])
          else (traj, idx) from rfl] at hp
    by_cases htc : tcur < maxTime
    · rw [if_pos htc] at hp
      have hnext : (sampleJump chain scur (rand idx) (rand (idx + 1))).1
          ∈ chain.states :=
        sampleJump_next_mem chain scur _ _ hvalid hscur
      cases hj : (sampleJump chain scur (rand idx) (rand (idx + 1))).2 with
      | none =>
        simp only [hj] at hp
        exact htraj p hp
      | some h =>
        simp only [hj] at hp
        by_cases hge : maxTime ≤ tcur + h
        · rw [if_pos hge] at hp
          exact htraj p hp
        · rw [if_neg hge] at hp
          refine ih _ _ _ _ hnext ?_ p hp
          intro q hq
          rcases List.mem_append.mp hq with hq | hq
          · exact htraj q hq
          · have : q = (tcur + h, _) := List.mem_singleton.mp hq
            rw [this]
            exact hnext
    · rw [if_neg htc] at hp
      exact htraj p hp

theorem sampleBody_prefix (chain : CtmcDef) (maxTime : ℝ) (rand : ℕ → ℚ) :
    ∀ (fuel idx : ℕ) (tcur : ℝ) (scur : String)
      (traj : List (ℝ × String)),
      ∃ rest, (sampleBody chain maxTime rand fuel idx tcur scur traj).1 =
        traj ++ rest := by
  intro fuel
  induction fuel with
  | zero => intro idx tcur scur traj; exact ⟨[], by simp [sampleBody]⟩
  | succ fuel ih =>
    intro idx tcur scur traj
    rw [show sampleBody chain maxTime rand (fuel + 1) idx tcur scur traj
        = if tcur < maxTime then
            let j := sampleJump chain scur (rand idx) (rand (idx + 1))
            let idx2 := if isAbsorbing chain scur then idx else idx + 2
            match j.2 with
            | none => (traj, idx2)
            | some h =>
              if maxTime ≤ tcur + h then (traj, idx2)
              else
                sampleBody chain maxTime rand fuel idx2 (tcur + h) j.1
                  (traj ++ [(tcur + h, j.1)])
          else (traj, idx) from rfl]
    by_cases htc : tcur < maxTime
    · rw [if_pos htc]
      cases hj : (sampleJump chain scur (rand idx) (rand (idx + 1))).2 with
      | none =>
        simp only [hj]
        exact ⟨[], by simp⟩
      | some h =>
        simp only [hj]
        by_cases hge : maxTime ≤ tcur + h
        · rw [if_pos hge]
          exact ⟨[], by simp⟩
        · rw [if_neg hge]
          obtain ⟨rest, hrest⟩ := ih
            (if isAbsorbing chain scur then idx else idx + 2) (tcur + h)
            (sampleJump chain scur (rand idx) (rand (idx + 1))).1
            (traj ++ [(tcur + h,
              (sampleJump chain scur (rand idx) (rand (idx + 1))).1)])
          refine ⟨(tcur + h,
            (sampleJump chain scur (rand idx) (rand (idx + 1))).1) :: rest,
            ?_⟩
          rw [hrest]
          simp [List.append_assoc]
    · rw [if_neg htc]
      exact ⟨[], by simp⟩

theorem sampleTrajectoryFrom_ne_nil (chain : CtmcDef) (maxTime : ℝ)
    (rand : ℕ → ℚ) (fuel idx0 : ℕ) :
    (sampleTrajectoryFrom chain maxTime rand fuel idx0).1 ≠ [] := by
  unfold sampleTrajectoryFrom
  obtain ⟨rest, hrest⟩ := sampleBody_prefix chain maxTime rand fuel
    (idx0 + 1) 0
    (sampleFromDistribution chain.initialDistribution chain.states
      (rand idx0))
    [((0 : ℝ), sampleFromDistribution chain.initialDistribution chain.states
      (rand idx0))]
  simp only
  rw [hrest]
  simp

theorem sampleTrajectoryFrom_states (chain : CtmcDef) (maxTime : ℝ)
    (rand : ℕ → ℚ) (fuel idx0 : ℕ) (hvalid : ValidChain chain) :
    ∀ p ∈ (sampleTrajectoryFrom chain maxTime rand fuel idx0).1,
      p.2 ∈ chain.states := by
  unfold sampleTrajectoryFrom
  simp only
  refine sampleBody_states chain maxTime rand hvalid fuel (idx0 + 1) 0 _ _
    (sampleFromDistribution_mem _ _ _ hvalid.1) ?_
  intro p hp
  have : p = (0, sampleFromDistribution chain.initialDistribution
      chain.states (rand idx0)) := List.mem_singleton.mp hp
  rw [this]
  exact sampleFromDistribution_mem _ _ _ hvalid.1

theorem stateAtTime_mem (traj : List (ℝ × String)) (t : ℝ)
    (S : List String) (hne : traj ≠ [])
    (hmem : ∀ p ∈ traj, p.2 ∈ S) : stateAtTime traj t ∈ S := by
  cases traj with
  | nil => exact absurd rfl hne
  | cons p rest =>
    show ((p :: rest.takeWhile (fun q => q.1 ≤ t)).getLastD (0, "")).2 ∈ S
    have hlast : ((p :: rest.takeWhile (fun q => q.1 ≤ t)).getLastD
        (0, "")) ∈ p :: rest.takeWhile (fun q => q.1 ≤ t) :=
      getLastD_mem_of_ne_nil _ _ (List.cons_ne_nil _ _)
    rcases List.mem_cons.mp hlast with heq | hmem2
    · rw [heq]
      exact hmem p (List.mem_cons_self _ _)
    · have : ((p :: rest.takeWhile (fun q => q.1 ≤ t)).getLastD
          (0, "")) ∈ rest := List.takeWhile_subset _ hmem2
      exact hmem _ (List.mem_cons_of_mem _ this)

theorem sum_map_zero_str (l : List String) (f : String → ℚ)
    (h : ∀ x ∈ l, f x = 0) : (l.map f).sum = 0 := by
  induction l with
  | nil => simp
  | cons a rest ih =>
    rw [List.map_cons, List.sum_cons, h a (List.mem_cons_self _ _),
      ih (fun x hx => h x (List.mem_cons_of_mem _ hx))]
    simp

theorem sum_map_add_str (l : List String) (f g : String → ℚ) :
    (l.map (fun s => f s + g s)).sum = (l.map f).sum + (l.map g).sum := by
  induction l with
  | nil => simp
  | cons a rest ih =>
    simp only [List.map_cons, List.sum_cons, ih]
    ring

theorem sum_map_div_str (l : List String) (f : String → ℚ) (c : ℚ) :
    (l.map (fun s => f s / c)).sum = (l.map f).sum / c := by
  induction l with
  | nil => simp
  | cons a rest ih =>
    rw [List.map_cons, List.sum_cons, ih, List.map_cons, List.sum_cons,
      add_div]

theorem sum_indicator_one (l : List String) (hnd : l.Nodup) (s0 : String)
    (hs0 : s0 ∈ l) :
    (l.map (fun s => if s = s0 then (1 : ℚ) else 0)).sum = 1 := by
  rw [sum_map_eq_self_add_filter l hnd s0 hs0
    (fun s => if s = s0 then (1 : ℚ) else 0)]
  rw [if_pos rfl]
  have hz : ((l.filter (fun j => s0 ≠ j)).map
      (fun s => if s = s0 then (1 : ℚ) else 0)).sum = 0 := by
    apply sum_map_zero_str
    intro x hx
    have hne : s0 ≠ x := by simpa using List.of_mem_filter hx
    rw [if_neg (fun h => hne h.symm)]
  rw [hz]
  ring

theorem tallyFold_apply (tps : List ℝ) (traj : List (ℝ × String)) :
    ∀ (l : List ℕ), l.Nodup →
      ∀ (counts : String → ℕ → ℚ) (s : String) (i : ℕ),
      (l.foldl (fun counts i =>
        let s := stateAtTime traj (tps.getD i 0)
        fun s2 j => if s2 = s ∧ j = i then counts s2 j + 1 else counts s2 j)
        counts) s i =
      counts s i +
        (if i ∈ l ∧ s = stateAtTime traj (tps.getD i 0) then 1 else 0) := by
  intro l
  induction l with
  | nil =>
    intro _ counts s i
    simp
  | cons k rest ih =>
    intro hnd counts s i
    rw [List.foldl_cons, ih (List.nodup_cons.mp hnd).2]
    by_cases hik : i = k
    · subst hik
      have hnotin : i ∉ rest := (List.nodup_cons.mp hnd).1
      have h1 : ¬ (i ∈ rest ∧ s = stateAtTime traj (tps.getD i 0)) :=
        fun hc => hnotin hc.1
      rw [if_neg h1]
      have h2 : (i ∈ i :: rest ∧ s = stateAtTime traj (tps.getD i 0)) ↔
          s = stateAtTime traj (tps.getD i 0) := by
        simp
      by_cases hs : s = stateAtTime traj (tps.getD i 0)
      · rw [if_pos (h2.mpr hs)]
        show (if s = stateAtTime traj (tps.getD i 0) ∧ i = i
            then counts s i + 1 else counts s i) + 0 = counts s i + 1
        rw [if_pos ⟨hs, rfl⟩, add_zero]
      · rw [if_neg (fun hc => hs (h2.mp hc))]
        show (if s = stateAtTime traj (tps.getD i 0) ∧ i = i
            then counts s i + 1 else counts s i) + 0 = counts s i + 0
        rw [if_neg (fun hc => hs hc.1), add_zero]
    · have hm : (i ∈ k :: rest ∧ s = stateAtTime traj (tps.getD i 0)) ↔
          (i ∈ rest ∧ s = stateAtTime traj (tps.getD i 0)) := by
        constructor
        · intro hc
          rcases List.mem_cons.mp hc.1 with h | h
          · exact absurd h hik
          · exact ⟨h, hc.2⟩
        · intro hc
          exact ⟨List.mem_cons_of_mem _ hc.1, hc.2⟩
      show (if s = stateAtTime traj (tps.getD k 0) ∧ i = k
          then counts s i + 1 else counts s i) +
          (if i ∈ rest ∧ s = stateAtTime traj (tps.getD i 0) then 1 else 0) =
          counts s i +
          (if i ∈ k :: rest ∧ s = stateAtTime traj (tps.getD i 0)
            then 1 else 0)
      rw [if_neg (fun hc => hik hc.2)]
      by_cases hc2 : i ∈ rest ∧ s = stateAtTime traj (tps.getD i 0)
      · rw [if_pos hc2, if_pos (hm.mpr hc2)]
      · rw [if_neg hc2, if_neg (fun hc => hc2 (hm.mp hc))]

theorem tallyTrajectory_apply (N : ℕ) (tps : List ℝ)
    (traj : List (ℝ × String)) (counts : String → ℕ → ℚ) (s : String)
    (i : ℕ) :
    tallyTrajectory N tps traj counts s i =
      counts s i +
        (if i < N ∧ s = stateAtTime traj (tps.getD i 0) then 1 else 0) := by
  unfold tallyTrajectory
  rw [tallyFold_apply tps traj (List.range N) (List.nodup_range N) counts s i]
  by_cases hi : i < N
  · simp [List.mem_range, hi]
  · simp [List.mem_range, hi]

theorem tallyTrajectory_sum (states : List String) (hnd : states.Nodup)
    (N : ℕ) (tps : List ℝ) (traj : List (ℝ × String))
    (counts : String → ℕ → ℚ) (i : ℕ) (hi : i < N)
    (hstate : stateAtTime traj (tps.getD i 0) ∈ states) :
    (states.map (fun s => tallyTrajectory N tps traj counts s i)).sum =
      (states.map (fun s => counts s i)).sum + 1 := by
  have happ : ∀ s ∈ states, tallyTrajectory N tps traj counts s i =
      counts s i + (if s = stateAtTime traj (tps.getD i 0) then 1 else 0) := by
    intro s _
    rw [tallyTrajectory_apply]
    simp [hi]
  rw [List.map_congr_left happ, sum_map_add_str,
    sum_indicator_one states hnd _ hstate]

theorem tallyTrajectory_nonneg (N : ℕ) (tps : List ℝ)
    (traj : List (ℝ × String)) (counts : String → ℕ → ℚ)
    (h : ∀ s i, 0 ≤ counts s i) :
    ∀ s i, 0 ≤ tallyTrajectory N tps traj counts s i := by
  intro s i
  rw [tallyTrajectory_apply]
  by_cases hc : i < N ∧ s = stateAtTime traj (tps.getD i 0)
  · rw [if_pos hc]
    linarith [h s i]
  · rw [if_neg hc]
    simpa using h s i

theorem simStep_fst (chain : CtmcDef) (maxTime : ℝ) (rand : ℕ → ℚ)
    (fuel numTimePoints : ℕ) (tps : List ℝ)
    (p : (String → ℕ → ℚ) × ℕ) :
    (simStep chain maxTime rand fuel numTimePoints tps p).1 =
      tallyTrajectory numTimePoints tps
        (sampleTrajectoryFrom chain maxTime rand fuel p.2).1 p.1 := rfl

theorem simFold_sum (chain : CtmcDef) (maxTime : ℝ) (rand : ℕ → ℚ)
    (fuel numTimePoints : ℕ) (tps : List ℝ) (hvalid : ValidChain chain)
    (i : ℕ) (hi : i < numTimePoints) :
    ∀ (l : List ℕ) (p : (String → ℕ → ℚ) × ℕ),
      (chain.states.map (fun s =>
        (l.foldl (fun p _ =>
          simStep chain maxTime rand fuel numTimePoints tps p) p).1 s i)).sum
      = (chain.states.map (fun s => p.1 s i)).sum + (l.length : ℚ) := by
  intro l
  induction l with
  | nil => intro p; simp
  | cons a rest ih =>
    intro p
    rw [List.foldl_cons]
    beta_reduce
    rw [ih]
    rw [simStep_fst]
    have hne := sampleTrajectoryFrom_ne_nil chain maxTime rand fuel p.2
    have hmem := sampleTrajectoryFrom_states chain maxTime rand fuel p.2
      hvalid
    have hstate : stateAtTime
        (sampleTrajectoryFrom chain maxTime rand fuel p.2).1
        (tps.getD i 0) ∈ chain.states :=
      stateAtTime_mem _ _ _ hne hmem
    rw [tallyTrajectory_sum chain.states hvalid.2.1 numTimePoints tps _
      p.1 i hi hstate]
    push_cast [List.length_cons]
    ring

theorem simFold_nonneg (chain : CtmcDef) (maxTime : ℝ) (rand : ℕ → ℚ)
    (fuel numTimePoints : ℕ) (tps : List ℝ) :
    ∀ (l : List ℕ) (p : (String → ℕ → ℚ) × ℕ),
      (∀ s i, 0 ≤ p.1 s i) →
      ∀ s i, 0 ≤ (l.foldl (fun p _ =>
        simStep chain maxTime rand fuel numTimePoints tps p) p).1 s i := by
  intro l
  induction l with
  | nil => intro p hp s i; exact hp s i
  | cons a rest ih =>
    intro p hp s i
    rw [List.foldl_cons]
    beta_reduce
    refine ih _ ?_ s i
    rw [simStep_fst]
    exact tallyTrajectory_nonneg _ _ _ _ hp

/-- C10: for every valid chain, at least one trajectory, and a grid of at
least two points, the proportions returned by `runSimulation` form a
probability distribution at each grid index: the values over all states are
non-negative and sum to exactly 1 (each trajectory contributes exactly one
state count per grid time, and every count is divided by `M`). -/
theorem C10_runSimulation (chain : CtmcDef) (M numTimePoints : ℕ)
    (maxTime : ℝ) (rand : ℕ → ℚ) (fuel : ℕ)
    (hvalid : ValidChain chain) (hM : 1 ≤ M) (hN : 2 ≤ numTimePoints)
    (i : ℕ) (hi : i < numTimePoints) :
    ((chain.states.map (fun s =>
      (runSimulation chain M numTimePoints maxTime rand fuel).2 s i)).sum
      = 1) ∧
    (∀ s, 0 ≤ (runSimulation chain M numTimePoints maxTime rand fuel).2 s i)
    := by
  have h2 : (runSimulation chain M numTimePoints maxTime rand fuel).2 =
      fun s i => ((List.range M).foldl
        (fun p _ => simStep chain maxTime rand fuel numTimePoints
          (timePoints numTimePoints maxTime) p)
        ((fun _ _ => 0), 0)).1 s i / (M : ℚ) := rfl
  rw [h2]
  have hMQ : ((M : ℚ)) ≠ 0 := by
    have h0 : 0 < M := by omega
    have : (0 : ℚ) < (M : ℚ) := by exact_mod_cast h0
    exact ne_of_gt this
  constructor
  · rw [sum_map_div_str chain.states _ (M : ℚ)]
    rw [simFold_sum chain maxTime rand fuel numTimePoints
      (timePoints numTimePoints maxTime) hvalid i hi (List.range M)
      ((fun _ _ => 0), 0)]
    rw [sum_map_zero_str chain.states _ (fun s _ => rfl)]
    rw [List.length_range, zero_add]
    exact div_self hMQ
  · intro s
    refine div_nonneg ?_ (by positivity)
    exact simFold_nonneg chain maxTime rand fuel numTimePoints
      (timePoints numTimePoints maxTime) (List.range M)
      ((fun _ _ => 0), 0) (fun _ _ => le_refl 0) s i

/-- Witness for C10 at the two-state chain, one trajectory, two grid
points, evaluated at grid index 0. -/
theorem C10_runSimulation_witness :
    ValidChain chainAB ∧ (1 : ℕ) ≤ 1 ∧ (2 : ℕ) ≤ 2 ∧ (0 : ℕ) < 2 ∧
    ((chainAB.states.map (fun s =>
      (runSimulation chainAB 1 2 1 (fun _ => 1/2) 3).2 s 0)).sum = 1) := by
  have hvalid : ValidChain chainAB := by
    refine ⟨by decide, by decide, ?_⟩
    intro t ht
    fin_cases ht <;> exact ⟨by decide, by decide, by norm_num⟩
  exact ⟨hvalid, le_refl 1, le_refl 2, by norm_num,
    (C10_runSimulation chainAB 1 2 1 (fun _ => 1/2) 3 hvalid (le_refl 1)
      (le_refl 2) 0 (by norm_num)).1⟩

end StochSim
